import Mathlib

/-!
Verification of the Konga/Jumia review scraper (`src/main.py`).

This file gives a shallow embedding of `src/main.py` and of the parts of
CPython 3.11's `urllib.parse` that it calls (`urlparse`, `urlunparse`,
`urljoin`), models HTML documents and the CSS-selector queries the scraper
performs, and proves or refutes the specification claims about the program.

Strings are modelled as `List Char`; Python `dict`s as association lists;
the network as a function from (URL, page number) to a fetched document;
`time.sleep` and `requests.get` as events in an explicit trace.
-/

namespace Scraper

/-! ## Generic string (List Char) helpers -/

/-- Split a list at the first occurrence of `c`; the separator is dropped.
Models Python `s.split(c, 1)` when `c ∈ s` (`some`) vs `c ∉ s` (`none`). -/
def splitOnceChar (c : Char) : List Char → Option (List Char × List Char)
  | [] => none
  | x :: xs =>
    if x = c then some ([], xs)
    else (splitOnceChar c xs).map (fun p => (x :: p.1, p.2))

/-- Split a list at the last occurrence of `c`; the separator is dropped. -/
def splitLastChar (c : Char) (l : List Char) : Option (List Char × List Char) :=
  match splitOnceChar c l.reverse with
  | none => none
  | some (a, b) => some (b.reverse, a.reverse)

/-- Python `str.split(sep)` for a one-character separator (keeps empty parts). -/
def splitAllChar (c : Char) : List Char → List (List Char)
  | [] => [[]]
  | x :: xs =>
    match splitAllChar c xs with
    | h :: t => if x = c then [] :: h :: t else (x :: h) :: t
    | [] => [[x]]

/-- Python `sep.join(parts)` for a one-character separator. -/
def joinWithChar (c : Char) : List (List Char) → List Char
  | [] => []
  | [x] => x
  | x :: xs => x ++ c :: joinWithChar c xs

/-- Python `str.strip()` restricted to the whitespace characters of the model. -/
def stripChars (l : List Char) : List Char :=
  ((l.dropWhile Char.isWhitespace).reverse.dropWhile Char.isWhitespace).reverse

/-- Python `str.split()` with no argument: whitespace-delimited tokens,
empty tokens dropped. -/
def splitWsGo (cur : List Char) : List Char → List (List Char)
  | [] => if cur.isEmpty then [] else [cur.reverse]
  | c :: cs =>
    if c.isWhitespace then
      if cur.isEmpty then splitWsGo [] cs else cur.reverse :: splitWsGo [] cs
    else splitWsGo (c :: cur) cs

def splitWs (l : List Char) : List (List Char) := splitWsGo [] l

/-! ## `urllib.parse` model (CPython 3.11.6)

Faithful to `urlsplit`, `urlparse`, `_splitparams`, `_splitnetloc`,
`urlunsplit`, `urlunparse` and `urljoin`, minus the `ValueError` raising
validation paths (`_checknetloc`, bracketed-host checks), which are out of
scope for the claims (they concern malformed netlocs only). -/

/-- Characters of `_WHATWG_C0_CONTROL_OR_SPACE` (codepoints 0x00–0x20). -/
def isC0Space (c : Char) : Bool := c.toNat ≤ 32

/-- `_UNSAFE_URL_BYTES_TO_REMOVE = ['\t', '\r', '\n']`. -/
def isUnsafeUrlByte (c : Char) : Bool := c = '\t' || c = '\r' || c = '\n'

/-- Membership in Python's `scheme_chars` (ASCII letters, digits, `+-.`). -/
def isSchemeChar (c : Char) : Bool :=
  c.isAlpha || c.isDigit || c = '+' || c = '-' || c = '.'

/-- The validity test of `urlsplit` for the text before the first `:`:
`i > 0 and url[0].isascii() and url[0].isalpha()` plus every character in
`scheme_chars`. -/
def validScheme : List Char → Bool
  | [] => false
  | c :: cs => c.isAlpha && (c :: cs).all isSchemeChar

/-- `uses_relative` from `urllib.parse`. -/
def uses_relative : List (List Char) :=
  [[], "ftp".toList, "http".toList, "gopher".toList, "nntp".toList,
   "imap".toList, "wais".toList, "file".toList, "https".toList,
   "shttp".toList, "mms".toList, "prospero".toList, "rtsp".toList,
   "rtsps".toList, "rtspu".toList, "sftp".toList, "svn".toList,
   "svn+ssh".toList, "ws".toList, "wss".toList]

/-- `uses_netloc` from `urllib.parse`. -/
def uses_netloc : List (List Char) :=
  [[], "ftp".toList, "http".toList, "gopher".toList, "nntp".toList,
   "telnet".toList, "imap".toList, "wais".toList, "file".toList,
   "mms".toList, "https".toList, "shttp".toList, "snews".toList,
   "prospero".toList, "rtsp".toList, "rtsps".toList, "rtspu".toList,
   "rsync".toList, "svn".toList, "svn+ssh".toList, "sftp".toList,
   "nfs".toList, "git".toList, "git+ssh".toList, "ws".toList, "wss".toList]

/-- `uses_params` from `urllib.parse`. -/
def uses_params : List (List Char) :=
  [[], "ftp".toList, "hdl".toList, "prospero".toList, "http".toList,
   "imap".toList, "https".toList, "shttp".toList, "rtsp".toList,
   "rtsps".toList, "rtspu".toList, "sip".toList, "sips".toList,
   "mms".toList, "sftp".toList, "tel".toList]

/-- The scheme-extraction step of `urlsplit`: split at the first `:`, accept
only a valid scheme (which is lowercased), otherwise keep the default. -/
def schemeSplit (dscheme url : List Char) : List Char × List Char :=
  match splitOnceChar ':' url with
  | some (pre, post) =>
    if validScheme pre then (pre.map Char.toLower, post) else (dscheme, url)
  | none => (dscheme, url)

/-- A netloc-terminating delimiter (`'/?#'` in `_splitnetloc`). -/
def netlocDelim (c : Char) : Bool := c = '/' || c = '?' || c = '#'

/-- The netloc-extraction step of `urlsplit`: `if url[:2] == '//'` then
`_splitnetloc(url, 2)` (the netloc runs to the first of `/?#` after the
two slashes). -/
def netlocSplit (url : List Char) : List Char × List Char :=
  if url.take 2 = ['/', '/'] then
    ((url.drop 2).takeWhile (fun c => !netlocDelim c),
     (url.drop 2).dropWhile (fun c => !netlocDelim c))
  else ([], url)

/-- `if '#' in url: url, fragment = url.split('#', 1)`. -/
def hashSplit (url : List Char) : List Char × List Char :=
  match splitOnceChar '#' url with
  | some (a, b) => (a, b)
  | none => (url, [])

/-- `if '?' in url: url, query = url.split('?', 1)`. -/
def querySplit (url : List Char) : List Char × List Char :=
  match splitOnceChar '?' url with
  | some (a, b) => (a, b)
  | none => (url, [])

structure SplitRes where
  scheme : List Char
  netloc : List Char
  path : List Char
  query : List Char
  fragment : List Char
deriving DecidableEq, Repr

/-- `urlsplit(url, scheme=dscheme, allow_fragments=True)`. -/
def urlsplit (dscheme url : List Char) : SplitRes :=
  let url := (url.dropWhile isC0Space).filter (fun c => !isUnsafeUrlByte c)
  let sp := schemeSplit dscheme url
  let np := netlocSplit sp.2
  let hp := hashSplit np.2
  let qp := querySplit hp.1
  ⟨sp.1, np.1, qp.1, qp.2, hp.2⟩

/-- `_splitparams(url)`.  The inner `none` case of the second match mirrors
Python's `url[:i], url[i+1:]` at `i = -1`; callers guard with `';' in url`,
which makes that case unreachable. -/
def splitparams (url : List Char) : List Char × List Char :=
  match splitLastChar '/' url with
  | some (a, b) =>
    match splitOnceChar ';' b with
    | none => (url, [])
    | some (b1, b2) => (a ++ '/' :: b1, b2)
  | none =>
    match splitOnceChar ';' url with
    | none => (url.dropLast, url)
    | some (u1, u2) => (u1, u2)

structure UrlComponents where
  scheme : List Char
  netloc : List Char
  path : List Char
  params : List Char
  query : List Char
  fragment : List Char
deriving DecidableEq, Repr

/-- The params step of `urlparse`: `if scheme in uses_params and ';' in url:
url, params = _splitparams(url)`. -/
def resplitParams (scheme url : List Char) : List Char × List Char :=
  if scheme ∈ uses_params ∧ ';' ∈ url then splitparams url else (url, [])

/-- `urlparse(url, scheme=dscheme, allow_fragments=True)`. -/
def urlparse (dscheme url : List Char) : UrlComponents :=
  let s := urlsplit dscheme url
  let pp := resplitParams s.scheme s.path
  ⟨s.scheme, s.netloc, pp.1, pp.2, s.query, s.fragment⟩

/-- `urlunsplit((scheme, netloc, url, query, fragment))`. -/
def urlunsplit (scheme netloc url query fragment : List Char) : List Char :=
  let url :=
    if netloc ≠ [] ∨ (scheme ≠ [] ∧ scheme ∈ uses_netloc ∧ url.take 2 ≠ ['/', '/']) then
      '/' :: '/' :: netloc ++ (if url ≠ [] ∧ url.take 1 ≠ ['/'] then '/' :: url else url)
    else url
  let url := if scheme ≠ [] then scheme ++ ':' :: url else url
  let url := if query ≠ [] then url ++ '?' :: query else url
  if fragment ≠ [] then url ++ '#' :: fragment else url

/-- The params step of `urlunparse`: `if params: url = "%s;%s" % (url, params)`. -/
def rejoinParams (path params : List Char) : List Char :=
  if params ≠ [] then path ++ ';' :: params else path

/-- `urlunparse(components)`. -/
def urlunparse (c : UrlComponents) : List Char :=
  urlunsplit c.scheme c.netloc (rejoinParams c.path c.params) c.query c.fragment

/-- `main.py` lines 41–44: strip query and fragment via
`urlparse(url)._replace(query="", fragment="")` and `urlunparse`. -/
def normalize_url (url : List Char) : List Char :=
  let parsed := urlparse [] url
  urlunparse { parsed with query := [], fragment := [] }

/-- `segments[1:-1] = filter(None, segments[1:-1])` in `urljoin`. -/
def filterMiddle (segs : List (List Char)) : List (List Char) :=
  match segs with
  | [] => []
  | [x] => [x]
  | x :: xs => x :: (xs.dropLast.filter (fun s => s ≠ [])) ++ [xs.getLastD []]

/-- The segment-resolution loop of `urljoin` (`..` pops, `.` is skipped). -/
def resolveSegs (acc : List (List Char)) : List (List Char) → List (List Char)
  | [] => acc
  | s :: rest =>
    if s = ['.', '.'] then resolveSegs acc.dropLast rest
    else if s = ['.'] then resolveSegs acc rest
    else resolveSegs (acc ++ [s]) rest

/-- `urljoin(base, url, allow_fragments=True)`. -/
def urljoin (base url : List Char) : List Char :=
  if base = [] then url
  else if url = [] then base
  else
    let b := urlparse [] base
    let t := urlparse b.scheme url
    if t.scheme ≠ b.scheme ∨ t.scheme ∉ uses_relative then url
    else if t.scheme ∈ uses_netloc ∧ t.netloc ≠ [] then urlunparse t
    else
      let netloc := if t.scheme ∈ uses_netloc then b.netloc else t.netloc
      if t.path = [] ∧ t.params = [] then
        urlunparse ⟨t.scheme, netloc, b.path, b.params,
          (if t.query = [] then b.query else t.query), t.fragment⟩
      else
        let base_parts := splitAllChar '/' b.path
        let base_parts :=
          if base_parts.getLastD [] ≠ [] then base_parts.dropLast else base_parts
        let segments :=
          if t.path.take 1 = ['/'] then splitAllChar '/' t.path
          else filterMiddle (base_parts ++ splitAllChar '/' t.path)
        let resolved := resolveSegs [] segments
        let resolved :=
          if segments.getLastD [] = ['.'] ∨ segments.getLastD [] = ['.', '.'] then
            resolved ++ [[]]
          else resolved
        let joined := joinWithChar '/' resolved
        urlunparse ⟨t.scheme, netloc, (if joined = [] then ['/'] else joined),
          t.params, t.query, t.fragment⟩
/-! ## HTML document model and CSS-selector queries

A parsed HTML document (what `BeautifulSoup(html, "html.parser")` yields) is
modelled as a tree of elements and text nodes.  The selector language is
restricted to exactly what `main.py` uses: simple selectors (optional tag
name plus required classes), the descendant combinator, and comma groups.
`select` returns matching strict descendants in document (pre-order)
traversal order; `select_one` is its first result. -/

inductive HtmlNode where
  | text (s : List Char)
  | elem (tag : List Char) (classes : List (List Char))
      (attrs : List (List Char × List Char)) (children : List HtmlNode)
deriving Repr

/-- A simple CSS selector: optional tag name and a set of required classes. -/
structure SimpleSel where
  tag : Option (List Char)
  classes : List (List Char)

/-- A descendant-combinator chain: `ancestors` (outermost first) then the
selector the matched element itself must satisfy. -/
structure ChainSel where
  ancestors : List SimpleSel
  target : SimpleSel

def matchesSimple (s : SimpleSel) (n : HtmlNode) : Bool :=
  match n with
  | .text _ => false
  | .elem t cls _ _ =>
    (match s.tag with | none => true | some st => st = t)
      && s.classes.all (fun c => cls.contains c)

/-- Does the selector list embed (in order) into the ancestor path? -/
def embedsIn : List SimpleSel → List HtmlNode → Bool
  | [], _ => true
  | _ :: _, [] => false
  | s :: ss, a :: as => if matchesSimple s a then embedsIn ss as else embedsIn (s :: ss) as

def matchesChain (c : ChainSel) (path : List HtmlNode) (n : HtmlNode) : Bool :=
  matchesSimple c.target n && embedsIn c.ancestors path

mutual
/-- Strict descendants of a node, in document order, with ancestor paths
(outermost ancestor first, the node's parent last). -/
def descendantsFrom (path : List HtmlNode) : HtmlNode → List (List HtmlNode × HtmlNode)
  | .text _ => []
  | .elem t cls attrs children =>
    descendantsList (path ++ [HtmlNode.elem t cls attrs children]) children

def descendantsList (path : List HtmlNode) : List HtmlNode → List (List HtmlNode × HtmlNode)
  | [] => []
  | c :: cs => (path, c) :: (descendantsFrom path c ++ descendantsList path cs)
end

/-- `element.select(selector)` for a comma group of descendant chains. -/
def select (root : HtmlNode) (group : List ChainSel) : List HtmlNode :=
  (descendantsFrom [] root).filterMap
    (fun pn => if group.any (fun ch => matchesChain ch pn.1 pn.2) then some pn.2 else none)

/-- `element.select_one(selector)`. -/
def selectOne (root : HtmlNode) (group : List ChainSel) : Option HtmlNode :=
  (select root group).head?

mutual
/-- The text strings of all descendant text nodes, in document order. -/
def nodeStrings : HtmlNode → List (List Char)
  | .text s => [s]
  | .elem _ _ _ cs => nodeStringsList cs

def nodeStringsList : List HtmlNode → List (List Char)
  | [] => []
  | c :: cs => nodeStrings c ++ nodeStringsList cs
end

/-- `element.get_text(strip=True)`: each descendant string stripped, then
concatenated. -/
def getTextStrip (n : HtmlNode) : List Char :=
  ((nodeStrings n).map stripChars).flatten

/-- `element.get(name)`: attribute lookup. -/
def getAttr (name : List Char) (n : HtmlNode) : Option (List Char) :=
  match n with
  | .text _ => none
  | .elem _ _ attrs _ => (attrs.find? (fun p => p.1 == name)).map (fun p => p.2)

/-! Selector constants used by `main.py`. -/

/-- `"article.-review, div.-review, article.review, div.review"` (line 51). -/
def selReviewBlocks : List ChainSel :=
  [⟨[], ⟨some "article".toList, ["-review".toList]⟩⟩,
   ⟨[], ⟨some "div".toList, ["-review".toList]⟩⟩,
   ⟨[], ⟨some "article".toList, ["review".toList]⟩⟩,
   ⟨[], ⟨some "div".toList, ["review".toList]⟩⟩]

/-- `"section.card.aim article"` (line 53). -/
def selReviewBlocksFallback : List ChainSel :=
  [⟨[⟨some "section".toList, ["card".toList, "aim".toList]⟩], ⟨some "article".toList, []⟩⟩]

def selH3 : List ChainSel := [⟨[], ⟨some "h3".toList, []⟩⟩]

def selP : List ChainSel := [⟨[], ⟨some "p".toList, []⟩⟩]

/-- `".stars"` (line 62). -/
def selStars : List ChainSel := [⟨[], ⟨none, ["stars".toList]⟩⟩]

/-- `"div.-df.-j-bet.-i-ctr.-gy5"` (line 65). -/
def selMetaDiv : List ChainSel :=
  [⟨[], ⟨some "div".toList,
    ["-df".toList, "-j-bet".toList, "-i-ctr".toList, "-gy5".toList]⟩⟩]

def selSpan : List ChainSel := [⟨[], ⟨some "span".toList, []⟩⟩]

/-- `"a.core"` (line 124). -/
def selACore : List ChainSel := [⟨[], ⟨some "a".toList, ["core".toList]⟩⟩]

/-- `"article a"` (line 126). -/
def selArticleA : List ChainSel :=
  [⟨[⟨some "article".toList, []⟩], ⟨some "a".toList, []⟩⟩]

/-! ## The review extractor (`parse_reviews`, lines 47–100) -/

structure Review where
  title : List Char
  rating : List Char
  body : List Char
  author : List Char
  date : List Char
deriving DecidableEq, Repr

/-- Line 56 / 77: `block.select_one("h3")`, text or empty string. -/
def blockTitle (block : HtmlNode) : List Char :=
  match selectOne block selH3 with
  | some t => getTextStrip t
  | none => []

/-- Lines 57–60 / 78: first `p` descendant, text or empty string. -/
def blockBody (block : HtmlNode) : List Char :=
  match (select block selP).head? with
  | some b => getTextStrip b
  | none => []

/-- Lines 80–85: rating is the first whitespace token of the `.stars` text. -/
def blockRating (block : HtmlNode) : List Char :=
  match selectOne block selStars with
  | none => []
  | some r =>
    match splitWs (getTextStrip r) with
    | [] => []
    | p :: _ => p

/-- Lines 72–75: strip a leading case-insensitive `"by "` prefix, then strip
surrounding whitespace (`author_text[3:].strip()`). -/
def stripByPrefix (author_text : List Char) : List Char :=
  if (author_text.map Char.toLower).take 3 = "by ".toList then
    stripChars (author_text.drop 3)
  else author_text

/-- Lines 63–75: date and author from the metadata container's spans. -/
def blockDateAuthor (block : HtmlNode) : List Char × List Char :=
  match selectOne block selMetaDiv with
  | none => ([], [])
  | some m =>
    let spans := select m selSpan
    let date := match spans.head? with
      | some s => getTextStrip s
      | none => []
    let author := match spans.get? 1 with
      | some s => stripByPrefix (getTextStrip s)
      | none => []
    (date, author)

/-- The body of the `for block in review_blocks` loop (lines 55–98):
`none` models `continue` for a block with empty title and body. -/
def parseBlock (block : HtmlNode) : Option Review :=
  let title := blockTitle block
  let body := blockBody block
  let rating := blockRating block
  let da := blockDateAuthor block
  if body = [] ∧ title = [] then none
  else some ⟨title, rating, body, da.2, da.1⟩

/-- `parse_reviews(html)` (lines 47–100). -/
def parse_reviews (soup : HtmlNode) : List Review :=
  let review_blocks := select soup selReviewBlocks
  let review_blocks :=
    if review_blocks.isEmpty then select soup selReviewBlocksFallback
    else review_blocks
  review_blocks.filterMap parseBlock

/-! ## The product-link extractor (`parse_category_product_urls`, lines 120–136) -/

/-- The anchor selection with fallback (lines 124–126). -/
def productLinks (html : HtmlNode) : List HtmlNode :=
  let product_links := select html selACore
  if product_links.isEmpty then select html selArticleA else product_links

/-- `list(dict.fromkeys(urls))` (line 136): de-duplicate keeping the first
occurrence, in insertion order. -/
def dictFromKeysGo (seen : List (List Char)) : List (List Char) → List (List Char)
  | [] => []
  | x :: xs =>
    if x ∈ seen then dictFromKeysGo seen xs
    else x :: dictFromKeysGo (x :: seen) xs

def dictFromKeys (l : List (List Char)) : List (List Char) := dictFromKeysGo [] l

/-- `parse_category_product_urls(html, category_url)` (lines 120–136). -/
def parse_category_product_urls (html : HtmlNode) (category_url : List Char) :
    List (List Char) :=
  let urls := (productLinks html).foldl
    (fun acc a =>
      match getAttr "href".toList a with
      | none => acc
      | some href =>
        if href = [] then acc
        else acc ++ [normalize_url (urljoin category_url href)])
    []
  dictFromKeys urls

/-! ## Crawlers (`scrape_jumia_reviews`, `scrape_category`,
`scrape_multiple_categories`, lines 103–171)

The network is a pure oracle `fetch : url → page → document` standing for
`fetch_page(url, params={"page": page})` followed by HTML parsing; each
crawler returns the trace of its side effects (fetches and sleeps) along
with its result.  The politeness delay is a rational number; Python's
`if delay_seconds:` truthiness test is `delay ≠ 0`. -/

inductive Ev where
  | fetch (url : List Char) (page : Nat)
  | sleep
deriving DecidableEq, Repr

/-- The `for page in range(1, pages + 1)` loop of `scrape_jumia_reviews`
(lines 107–115): `page` is the current page number, `rem` the number of
iterations the range still holds (`pages + 1 - page`), so the loop as a
whole runs at `page = 1`, `rem = pages`. -/
def scrapeReviewsLoop (fetch : List Char → Nat → HtmlNode) (base : List Char)
    (pages : Nat) (delay : ℚ) : Nat → Nat → List Ev × List Review
  | _, 0 => ([], [])
  | page, rem + 1 =>
    let page_reviews := parse_reviews (fetch base page)
    if page_reviews.isEmpty then ([Ev.fetch base page], [])
    else
      let rest := scrapeReviewsLoop fetch base pages delay (page + 1) rem
      (Ev.fetch base page ::
        ((if delay ≠ 0 ∧ page < pages then [Ev.sleep] else []) ++ rest.1),
       page_reviews ++ rest.2)

/-- `scrape_jumia_reviews(product_url, pages, delay_seconds)` (lines 103–117). -/
def scrape_jumia_reviews (fetch : List Char → Nat → HtmlNode)
    (product_url : List Char) (pages : Nat) (delay : ℚ) : List Ev × List Review :=
  scrapeReviewsLoop fetch (normalize_url product_url) pages delay 1 pages

structure Row where
  title : List Char
  rating : List Char
  body : List Char
  author : List Char
  date : List Char
  category : List Char
  product_url : List Char
deriving DecidableEq, Repr

/-- Lines 150–156: crawl one product URL and tag its reviews. -/
def crawlProduct (fetch : List Char → Nat → HtmlNode) (category_key : List Char)
    (review_pages : Nat) (delay : ℚ) (product_url : List Char) : List Ev × List Row :=
  let r := scrape_jumia_reviews fetch product_url review_pages delay
  (r.1, r.2.map (fun rev =>
    ⟨rev.title, rev.rating, rev.body, rev.author, rev.date, category_key, product_url⟩))

/-- The `for page in range(1, pages + 1)` loop of `scrape_category`
(lines 143–159); as in `scrapeReviewsLoop`, `rem` counts the remaining
iterations of the range.  Note the unconditional
`if delay_seconds: time.sleep(...)` at the end of every non-empty page
(line 158), with no `page < pages` guard. -/
def scrapeCategoryLoop (fetch : List Char → Nat → HtmlNode)
    (category_key category_url : List Char) (review_pages : Nat)
    (delay : ℚ) : Nat → Nat → List Ev × List Row
  | _, 0 => ([], [])
  | page, rem + 1 =>
    let product_urls := parse_category_product_urls (fetch category_url page) category_url
    if product_urls.isEmpty then ([Ev.fetch category_url page], [])
    else
      let prod := product_urls.map (crawlProduct fetch category_key review_pages delay)
      let rest := scrapeCategoryLoop fetch category_key category_url review_pages
        delay (page + 1) rem
      (Ev.fetch category_url page ::
        ((prod.map (fun p => p.1)).flatten
          ++ (if delay ≠ 0 then [Ev.sleep] else []) ++ rest.1),
       (prod.map (fun p => p.2)).flatten ++ rest.2)

/-- `CATEGORY_URLS` (lines 19–25). -/
def CATEGORY_URLS : List (List Char × List Char) :=
  [("electronics".toList, "https://www.konga.com/category/electronics-5261".toList),
   ("home_office".toList, "https://www.konga.com/category/home-kitchen-602".toList),
   ("health_beauty_personal_care".toList,
    "https://www.konga.com/category/beauty-health-personal-care-4".toList),
   ("phones_tablets".toList, "https://www.konga.com/category/phones-tablets-5294".toList),
   ("fashion".toList, "https://www.konga.com/category/konga-fashion-1259".toList)]

def lookupCategory (key : List Char) : Option (List Char) :=
  (CATEGORY_URLS.find? (fun p => p.1 == key)).map (fun p => p.2)

/-- `scrape_category(category_key, pages, review_pages, delay_seconds)`
(lines 139–161); `none` models the `KeyError` on an unregistered key. -/
def scrape_category (fetch : List Char → Nat → HtmlNode) (category_key : List Char)
    (pages review_pages : Nat) (delay : ℚ) : Option (List Ev × List Row) :=
  (lookupCategory category_key).map
    (fun category_url =>
      scrapeCategoryLoop fetch category_key category_url review_pages delay 1 pages)

/-- `scrape_multiple_categories(categories, ...)` (lines 164–171);
`if key not in CATEGORY_URLS: continue` skips unregistered keys, so the
`scrape_category` lookup always succeeds when reached. -/
def scrape_multiple_categories (fetch : List Char → Nat → HtmlNode)
    (categories : List (List Char)) (category_pages review_pages : Nat)
    (delay : ℚ) : List Ev × List Row :=
  match categories with
  | [] => ([], [])
  | key :: rest =>
    if (lookupCategory key).isSome then
      let rows := (scrape_category fetch key category_pages review_pages delay).getD ([], [])
      let r := scrape_multiple_categories fetch rest category_pages review_pages delay
      (rows.1 ++ r.1, rows.2 ++ r.2)
    else scrape_multiple_categories fetch rest category_pages review_pages delay

/-! ## The tabular writer (`save_reviews_to_csv`, lines 174–181)

The file-system effect is modelled by the return value: `none` means the
function returned without touching the target path; `some rows` means the
file was written with exactly those rows (header first).  Each written row
is the `csv.DictWriter` projection of a record onto `fieldnames`. -/

def fieldnames : List (List Char) :=
  ["category".toList, "product_url".toList, "title".toList, "rating".toList,
   "body".toList, "author".toList, "date".toList]

/-- Dictionary access `row[name]` for the keys a record carries. -/
def rowField (r : Row) (name : List Char) : List Char :=
  if name = "category".toList then r.category
  else if name = "product_url".toList then r.product_url
  else if name = "title".toList then r.title
  else if name = "rating".toList then r.rating
  else if name = "body".toList then r.body
  else if name = "author".toList then r.author
  else if name = "date".toList then r.date
  else []

/-- `save_reviews_to_csv(reviews, filename)` (lines 174–181). -/
def save_reviews_to_csv (reviews : List Row) : Option (List (List (List Char))) :=
  if reviews.isEmpty then none
  else some (fieldnames :: reviews.map (fun r => fieldnames.map (rowField r)))
/-! ## Specification-side definitions

These render phrases of the specification directly, independently of the
code path, for refinement comparisons. -/

/-- The resolved links of a category page before normalization: each matched
anchor with a non-empty link attribute, resolved against the base URL. -/
def resolvedRaw (html : HtmlNode) (base : List Char) : List (List Char) :=
  (productLinks html).filterMap (fun a =>
    match getAttr "href".toList a with
    | none => none
    | some href => if href = [] then none else some (urljoin base href))

/-- The resolved and normalized links of a category page, in document order,
duplicates included. -/
def resolvedList (html : HtmlNode) (base : List Char) : List (List Char) :=
  (resolvedRaw html base).map normalize_url

/-- Spec 4.4: "De-duplication ... keeps only the first occurrence", rendered
as a left fold that appends an element only when it is not yet present. -/
def specKeepFirst (l : List (List Char)) : List (List Char) :=
  l.foldl (fun acc x => if x ∈ acc then acc else acc ++ [x]) []

/-- An optional query part of a URL: absent, or `?` followed by the query. -/
def optQuery : Option (List Char) → List Char
  | none => []
  | some q => '?' :: q

/-- An optional fragment part of a URL: absent, or `#` followed by the
fragment. -/
def optFrag : Option (List Char) → List Char
  | none => []
  | some f => '#' :: f

/-- The heading-level tags of HTML. -/
def headingTags : List (List Char) :=
  ["h1".toList, "h2".toList, "h3".toList, "h4".toList, "h5".toList, "h6".toList]

def nodeTagIn (tags : List (List Char)) (n : HtmlNode) : Bool :=
  match n with
  | .text _ => false
  | .elem t _ _ _ => tags.contains t

mutual
/-- The first strict descendant (document order) whose tag is in `tags`. -/
def firstDescWithTag (tags : List (List Char)) : HtmlNode → Option HtmlNode
  | .text _ => none
  | .elem _ _ _ children => firstDescWithTagList tags children

def firstDescWithTagList (tags : List (List Char)) : List HtmlNode → Option HtmlNode
  | [] => none
  | c :: cs =>
    if nodeTagIn tags c then some c
    else
      match firstDescWithTag tags c with
      | some r => some r
      | none => firstDescWithTagList tags cs
end

/-- Spec 4.3 for the title: "text of the first heading-level sub-element
found, else empty string" (any heading level). -/
def specTitleAnyHeading (block : HtmlNode) : List Char :=
  match firstDescWithTag headingTags block with
  | some n => getTextStrip n
  | none => []

/-- The amended title contract: text of the first `h3` sub-element, else
empty string. -/
def specTitleH3 (block : HtmlNode) : List Char :=
  match firstDescWithTag ["h3".toList] block with
  | some n => getTextStrip n
  | none => []

/-- Claim C4's author contract: the span text "with exactly that prefix
stripped" when it begins with `"by "` case-insensitively, else verbatim. -/
def specAuthorExact (author_text : List Char) : List Char :=
  if (author_text.map Char.toLower).take 3 = "by ".toList then author_text.drop 3
  else author_text

/-- The per-page trace of the category crawler: the category-page fetch, the
full traces of the page's product crawls in order, then exactly one
politeness sleep (when the delay is nonzero). -/
def categoryPageTrace (fetch : List Char → Nat → HtmlNode)
    (category_key category_url : List Char) (review_pages : Nat) (delay : ℚ)
    (page : Nat) : List Ev :=
  Ev.fetch category_url page ::
    ((parse_category_product_urls (fetch category_url page) category_url).map
      (fun u => (crawlProduct fetch category_key review_pages delay u).1)).flatten
    ++ (if delay ≠ 0 then [Ev.sleep] else [])

/-- The invariants that components of a `urlparse` result satisfy, used to
analyse re-parsing the un-parsed URL.  `noscheme` records that when no
scheme and no netloc were found, the rejoined path-params portion neither
re-parses with a scheme nor starts with stripped whitespace. -/
structure ParseInv (c : UrlComponents) : Prop where
  scheme_ok : c.scheme = [] ∨
    (validScheme c.scheme = true ∧ c.scheme.map Char.toLower = c.scheme)
  netloc_delim : ∀ ch ∈ c.netloc, netlocDelim ch = false
  netloc_safe : ∀ ch ∈ c.netloc, isUnsafeUrlByte ch = false
  path_hash : '#' ∉ c.path
  path_query : '?' ∉ c.path
  path_safe : ∀ ch ∈ c.path, isUnsafeUrlByte ch = false
  params_hash : '#' ∉ c.params
  params_query : '?' ∉ c.params
  params_safe : ∀ ch ∈ c.params, isUnsafeUrlByte ch = false
  params_ok : ∃ x, resplitParams c.scheme x = (c.path, c.params)
  noscheme : c.scheme = [] → c.netloc = [] →
    (∀ d, schemeSplit d (rejoinParams c.path c.params)
      = (d, rejoinParams c.path c.params))
    ∧ (∀ ch, (rejoinParams c.path c.params).head? = some ch → isC0Space ch = false)

/-- The guard under which normalization is provably idempotent: the URL
parses with a nonempty netloc, or with a path that does not begin with
`//`. -/
def normalizeStable (url : List Char) : Prop :=
  (urlparse [] url).netloc ≠ [] ∨ (urlparse [] url).path.take 2 ≠ ['/', '/']

instance (url : List Char) : Decidable (normalizeStable url) := by
  unfold normalizeStable; infer_instance

/-! ## Concrete fixtures for witnesses and counterexamples -/

/-- An empty document: no review blocks, no product links. -/
def emptyDoc : HtmlNode := .elem "[document]".toList [] [] []

/-- A complete review block. -/
def reviewBlock : HtmlNode :=
  .elem "article".toList ["-review".toList] []
    [.elem "h3".toList [] [] [.text "Great phone".toList],
     .elem "p".toList [] [] [.text "  Works well  ".toList],
     .elem "div".toList ["stars".toList] [] [.text "4.5 out of 5".toList],
     .elem "div".toList
       ["-df".toList, "-j-bet".toList, "-i-ctr".toList, "-gy5".toList] []
       [.elem "span".toList [] [] [.text "12/01/2024".toList],
        .elem "span".toList [] [] [.text "By Jane Doe".toList]]]

/-- A document holding one complete review block. -/
def oneReviewDoc : HtmlNode := .elem "[document]".toList [] [] [reviewBlock]

/-- A network where every URL has one review page and nothing beyond. -/
def fetchOnePage : List Char → Nat → HtmlNode :=
  fun _ page => if page = 1 then oneReviewDoc else emptyDoc

/-- A review block whose only heading is an `h2`. -/
def h2Block : HtmlNode :=
  .elem "div".toList ["review".toList] []
    [.elem "h2".toList [] [] [.text "T".toList],
     .elem "p".toList [] [] [.text "B".toList]]

def h2Doc : HtmlNode := .elem "[document]".toList [] [] [h2Block]

/-- The author span with internal double whitespace after the prefix. -/
def doubleSpaceSpan : HtmlNode :=
  .elem "span".toList [] [] [.text "By  Jane".toList]

def dsDateSpan : HtmlNode := .elem "span".toList [] [] [.text "d".toList]

/-- A metadata container whose author span text is `"By  Jane"`. -/
def dsMetaDiv : HtmlNode :=
  .elem "div".toList
    ["-df".toList, "-j-bet".toList, "-i-ctr".toList, "-gy5".toList] []
    [dsDateSpan, doubleSpaceSpan]

/-- A review block whose author span text is `"By  Jane"`. -/
def doubleSpaceBlock : HtmlNode :=
  .elem "div".toList ["review".toList] []
    [.elem "p".toList [] [] [.text "B".toList], dsMetaDiv]

def doubleSpaceDoc : HtmlNode := .elem "[document]".toList [] [] [doubleSpaceBlock]

/-- A category page with one product link. -/
def oneLinkDoc : HtmlNode :=
  .elem "[document]".toList [] []
    [.elem "a".toList ["core".toList] [("href".toList, "https://h/p".toList)] []]

/-- A network for the category crawler: the electronics category page lists
one product, and every product page has no extractable reviews. -/
def fetchOneLink : List Char → Nat → HtmlNode :=
  fun url _ =>
    if url = "https://www.konga.com/category/electronics-5261".toList then oneLinkDoc
    else emptyDoc

/-- A category page whose single anchor resolves to the unstable URL
`m:////`. -/
def unstableLinkDoc : HtmlNode :=
  .elem "[document]".toList [] []
    [.elem "a".toList ["core".toList] [("href".toList, "m:////".toList)] []]
/-- A category page with two anchors resolving to the same normalized URL,
one empty-href anchor and one anchor with no href. -/
def dupLinkDoc : HtmlNode :=
  .elem "[document]".toList [] []
    [.elem "a".toList ["core".toList] [("href".toList, "/p/x?pos=1".toList)] [],
     .elem "a".toList ["core".toList] [("href".toList, [])] [],
     .elem "a".toList ["core".toList] [] [],
     .elem "a".toList ["core".toList] [("href".toList, "/p/x?pos=2#frag".toList)] [],
     .elem "a".toList ["core".toList] [("href".toList, "https://o.test/q".toList)] []]

/-! ## Helper lemmas -/

theorem rowField_expand (r : Row) :
    fieldnames.map (rowField r) =
      [r.category, r.product_url, r.title, r.rating, r.body, r.author, r.date] := rfl

/-! The review-crawler loop: termination at the first empty page, and the
full run when no page is empty. -/

theorem scrapeReviewsLoop_stop (fetch : List Char → Nat → HtmlNode)
    (base : List Char) (pages : Nat) (delay : ℚ) (k : Nat) (hkp : k ≤ pages) :
    ∀ rem s, s + rem = pages + 1 → s ≤ k →
      parse_reviews (fetch base k) = [] →
      (∀ j, s ≤ j → j < k → parse_reviews (fetch base j) ≠ []) →
      (scrapeReviewsLoop fetch base pages delay s rem).2 =
        ((List.range' s (k - s)).map (fun p => parse_reviews (fetch base p))).flatten := by
  intro rem
  induction rem with
  | zero => intro s hs hsk _ _; omega
  | succ r ih =>
    intro s hs hsk hk hne
    rcases Nat.eq_or_lt_of_le hsk with hek | hlt
    · subst hek
      simp [scrapeReviewsLoop, hk]
    · have hnes : parse_reviews (fetch base s) ≠ [] := hne s le_rfl hlt
      have hkssucc : k - s = (k - (s + 1)) + 1 := by omega
      rw [scrapeReviewsLoop]
      simp only [List.isEmpty_eq_true, hnes, if_false, hkssucc, List.range'_succ,
        List.map_cons, List.flatten_cons]
      rw [ih (s + 1) (by omega) hlt hk (fun j h1 h2 => hne j (by omega) h2)]

theorem scrapeReviewsLoop_full (fetch : List Char → Nat → HtmlNode)
    (base : List Char) (pages : Nat) (delay : ℚ) :
    ∀ rem s, s + rem = pages + 1 →
      (∀ j, s ≤ j → j ≤ pages → parse_reviews (fetch base j) ≠ []) →
      (scrapeReviewsLoop fetch base pages delay s rem).2 =
        ((List.range' s rem).map (fun p => parse_reviews (fetch base p))).flatten := by
  intro rem
  induction rem with
  | zero => intro s _ _; simp [scrapeReviewsLoop]
  | succ r ih =>
    intro s hs hne
    have hnes : parse_reviews (fetch base s) ≠ [] := hne s le_rfl (by omega)
    rw [scrapeReviewsLoop]
    simp only [List.isEmpty_eq_true, hnes, if_false, List.range'_succ,
      List.map_cons, List.flatten_cons]
    rw [ih (s + 1) (by omega) (fun j h1 h2 => hne j (by omega) h2)]

/-! ## Claim C1 -/

/-- **C1.** For every product URL, page limit `n ≥ 1`, and sequence of
fetched pages, if page `k` (`k ≤ n`) is the first page whose extracted
review list is empty, the Product Review Crawler returns exactly the
concatenation, in page order, of the reviews of pages `1..k-1`, regardless
of the page limit being larger than `k`; if no page up to `n` is empty it
returns the concatenation of pages `1..n`. -/
theorem c1_review_crawler_pagination (fetch : List Char → Nat → HtmlNode)
    (product_url : List Char) (n : Nat) (delay : ℚ) (_hn : 1 ≤ n) (k : Nat)
    (hk1 : 1 ≤ k) :
    (k ≤ n → parse_reviews (fetch (normalize_url product_url) k) = [] →
      (∀ j, 1 ≤ j → j < k → parse_reviews (fetch (normalize_url product_url) j) ≠ []) →
      (scrape_jumia_reviews fetch product_url n delay).2 =
        ((List.range' 1 (k - 1)).map
          (fun p => parse_reviews (fetch (normalize_url product_url) p))).flatten)
    ∧ ((∀ j, 1 ≤ j → j ≤ n → parse_reviews (fetch (normalize_url product_url) j) ≠ []) →
      (scrape_jumia_reviews fetch product_url n delay).2 =
        ((List.range' 1 n).map
          (fun p => parse_reviews (fetch (normalize_url product_url) p))).flatten) := by
  constructor
  · intro hkn hk hne
    exact scrapeReviewsLoop_stop fetch (normalize_url product_url) n delay k hkn
      n 1 (by omega) hk1 hk hne
  · intro hne
    exact scrapeReviewsLoop_full fetch (normalize_url product_url) n delay
      n 1 (by omega) hne

/-- Witness for C1: a network whose pages hold one review on page 1 and
nothing on page 2, crawled with page limit 3, yields exactly page 1's
reviews. -/
theorem c1_review_crawler_pagination_witness :
    (scrape_jumia_reviews fetchOnePage "https://x.test/p?a=1".toList 3 1).2 =
      parse_reviews (fetchOnePage (normalize_url "https://x.test/p?a=1".toList) 1) := by
  have h := (c1_review_crawler_pagination fetchOnePage "https://x.test/p?a=1".toList 3 1
    (by decide) 2 (by decide)).1 (by decide) (by decide)
    (by intro j h1 h2; interval_cases j; decide)
  rw [h]
  decide
/-! ## Claim C2 -/

/-- **C2, counterexample.** With one category page (`pages = 1`), a nonzero
delay, one product link on that page and no reviews behind it, the Category
Crawler's trace ends with a politeness sleep even though page 1 is the last
category page processed — against the claim that no delay occurs after the
last category page. -/
theorem c2_sleep_after_last_page_counterexample :
    scrape_category fetchOneLink "electronics".toList 1 1 1 =
      some ([Ev.fetch "https://www.konga.com/category/electronics-5261".toList 1,
             Ev.fetch "https://h/p".toList 1,
             Ev.sleep], []) ∧
    (scrape_category fetchOneLink "electronics".toList 1 1 1).map
        (fun r => r.1.getLast?) = some (some Ev.sleep) := by
  constructor <;> decide

theorem scrapeCategoryLoop_stop (fetch : List Char → Nat → HtmlNode)
    (category_key category_url : List Char) (pages review_pages : Nat) (delay : ℚ)
    (k : Nat) (hkp : k ≤ pages) :
    ∀ rem s, s + rem = pages + 1 → s ≤ k →
      parse_category_product_urls (fetch category_url k) category_url = [] →
      (∀ j, s ≤ j → j < k →
        parse_category_product_urls (fetch category_url j) category_url ≠ []) →
      (scrapeCategoryLoop fetch category_key category_url review_pages delay s rem).1 =
        ((List.range' s (k - s)).map
          (categoryPageTrace fetch category_key category_url review_pages delay)).flatten
        ++ [Ev.fetch category_url k] := by
  intro rem
  induction rem with
  | zero => intro s hs hsk _ _; omega
  | succ r ih =>
    intro s hs hsk hk hne
    rcases Nat.eq_or_lt_of_le hsk with hek | hlt
    · subst hek
      simp [scrapeCategoryLoop, hk]
    · have hnes : parse_category_product_urls (fetch category_url s) category_url ≠ [] :=
        hne s le_rfl hlt
      have hkssucc : k - s = (k - (s + 1)) + 1 := by omega
      rw [scrapeCategoryLoop]
      simp only [List.isEmpty_eq_true, hnes, if_false, hkssucc, List.range'_succ,
        List.map_cons, List.flatten_cons]
      rw [ih (s + 1) (by omega) hlt hk (fun j h1 h2 => hne j (by omega) h2)]
      simp [categoryPageTrace, List.map_map]
      rfl

theorem scrapeCategoryLoop_full (fetch : List Char → Nat → HtmlNode)
    (category_key category_url : List Char) (pages review_pages : Nat) (delay : ℚ) :
    ∀ rem s, s + rem = pages + 1 →
      (∀ j, s ≤ j → j ≤ pages →
        parse_category_product_urls (fetch category_url j) category_url ≠ []) →
      (scrapeCategoryLoop fetch category_key category_url review_pages delay s rem).1 =
        ((List.range' s rem).map
          (categoryPageTrace fetch category_key category_url review_pages delay)).flatten := by
  intro rem
  induction rem with
  | zero => intro s _ _; simp [scrapeCategoryLoop]
  | succ r ih =>
    intro s hs hne
    have hnes : parse_category_product_urls (fetch category_url s) category_url ≠ [] :=
      hne s le_rfl (by omega)
    rw [scrapeCategoryLoop]
    simp only [List.isEmpty_eq_true, hnes, if_false, List.range'_succ,
      List.map_cons, List.flatten_cons]
    rw [ih (s + 1) (by omega) (fun j h1 h2 => hne j (by omega) h2)]
    simp [categoryPageTrace, List.map_map]
    rfl

/-- **C2, amended.** In the Category Crawler with a nonzero delay, the
politeness sleep is performed exactly once per processed category page —
after all products of that page have been crawled — *including* after the
last category page processed (the `page < pages` guard of the review
crawler is absent here); no sleep follows the fetch of a page that yields
zero product links.  Formally, the trace is a concatenation of per-page
blocks `fetch page :: product crawls ++ [sleep]`, one for every page
processed, with a trailing bare fetch exactly when an empty page `k ≤ n`
terminated pagination. -/
theorem c2_category_delay_amended (fetch : List Char → Nat → HtmlNode)
    (key url : List Char) (n review_pages : Nat) (delay : ℚ) (hm : lookupCategory key = some url)
    (k : Nat) (hk1 : 1 ≤ k) :
    (k ≤ n → parse_category_product_urls (fetch url k) url = [] →
      (∀ j, 1 ≤ j → j < k → parse_category_product_urls (fetch url j) url ≠ []) →
      (scrape_category fetch key n review_pages delay).map (fun r => r.1) =
        some (((List.range' 1 (k - 1)).map
          (categoryPageTrace fetch key url review_pages delay)).flatten
          ++ [Ev.fetch url k]))
    ∧ ((∀ j, 1 ≤ j → j ≤ n → parse_category_product_urls (fetch url j) url ≠ []) →
      (scrape_category fetch key n review_pages delay).map (fun r => r.1) =
        some (((List.range' 1 n).map
          (categoryPageTrace fetch key url review_pages delay)).flatten)) := by
  constructor
  · intro hkn hk hne
    rw [scrape_category, hm]
    simp only [Option.map_some']
    rw [scrapeCategoryLoop_stop fetch key url n review_pages delay k hkn n 1
      (by omega) hk1 hk hne]
  · intro hne
    rw [scrape_category, hm]
    simp only [Option.map_some']
    rw [scrapeCategoryLoop_full fetch key url n review_pages delay n 1 (by omega) hne]

/-- Witness for the amended C2: the concrete run of the counterexample,
reproduced through the amended theorem — one page processed, its block
ending in a sleep. -/
theorem c2_category_delay_amended_witness :
    (scrape_category fetchOneLink "electronics".toList 1 1 1).map (fun r => r.1) =
      some (categoryPageTrace fetchOneLink "electronics".toList
        "https://www.konga.com/category/electronics-5261".toList 1 1 1) := by
  have h := (c2_category_delay_amended fetchOneLink "electronics".toList
    "https://www.konga.com/category/electronics-5261".toList 1 1 1 (by decide)
    2 (by decide)).2 (by intro j h1 h2; interval_cases j; decide)
  rw [h]
  decide
/-! ## Claim C8 -/

/-- **C8.** The Multi-Category Orchestrator silently skips every key absent
from the category registry (it is total — no error — and such keys
contribute zero records), and its record output is the concatenation of the
per-category results of the registered keys, preserving per-category order
and overall iteration order. -/
theorem c8_orchestrator_concat (fetch : List Char → Nat → HtmlNode)
    (category_pages review_pages : Nat) (delay : ℚ)
    (categories : List (List Char)) :
    (scrape_multiple_categories fetch categories category_pages review_pages delay).2 =
      ((categories.filter (fun key => (lookupCategory key).isSome)).map
        (fun key =>
          ((scrape_category fetch key category_pages review_pages delay).getD
            ([], [])).2)).flatten := by
  induction categories with
  | nil => rfl
  | cons key rest ih =>
    by_cases h : (lookupCategory key).isSome
    · simp only [scrape_multiple_categories, h, if_true, List.filter_cons, List.map_cons,
        List.flatten_cons, ih]
    · simp only [scrape_multiple_categories, h, if_false, List.filter_cons, Bool.false_eq_true,
        ih]

/-! ## Claim C9 -/

/-- **C9.** Given an empty record sequence the Tabular Writer performs no
write (the modelled file effect is `none`: the target is neither created nor
truncated); given a non-empty sequence it writes exactly one header row with
the fixed column order `category, product_url, title, rating, body, author,
date`, followed by one row per record in sequence order. -/
theorem c9_writer_spec (reviews : List Row) :
    (reviews = [] → save_reviews_to_csv reviews = none)
    ∧ (reviews ≠ [] → save_reviews_to_csv reviews =
        some (["category".toList, "product_url".toList, "title".toList, "rating".toList,
               "body".toList, "author".toList, "date".toList] ::
          reviews.map (fun r =>
            [r.category, r.product_url, r.title, r.rating, r.body, r.author, r.date]))) := by
  constructor
  · intro h; subst h; rfl
  · intro h
    match reviews with
    | [] => exact absurd rfl h
    | r :: rest => rfl

/-- Witness for C9 at both branches: the empty sequence writes nothing; a
one-record sequence writes the header and that record's row. -/
theorem c9_writer_spec_witness :
    save_reviews_to_csv [] = none ∧
    save_reviews_to_csv
        [⟨"t".toList, "4.5".toList, "b".toList, "a".toList, "d".toList,
          "electronics".toList, "https://h/p".toList⟩] =
      some [["category".toList, "product_url".toList, "title".toList, "rating".toList,
             "body".toList, "author".toList, "date".toList],
            ["electronics".toList, "https://h/p".toList, "t".toList, "4.5".toList,
             "b".toList, "a".toList, "d".toList]] := by
  refine ⟨(c9_writer_spec []).1 rfl, ?_⟩
  rw [(c9_writer_spec _).2 (by simp)]
  rfl
/-! ## Claim C7 -/

theorem foldl_skip_append (f : HtmlNode → Option (List Char)) (links : List HtmlNode) :
    ∀ acc : List (List Char),
      links.foldl (fun acc a =>
        match f a with
        | none => acc
        | some u => acc ++ [u]) acc
      = acc ++ links.filterMap f := by
  induction links with
  | nil => intro acc; simp
  | cons a rest ih =>
    intro acc
    simp only [List.foldl_cons, List.filterMap_cons]
    rcases f a with _ | u
    · exact ih acc
    · rw [ih (acc ++ [u]), List.append_assoc]
      rfl

theorem productUrls_foldl (base : List Char) (links : List HtmlNode) :
    ∀ acc : List (List Char),
      links.foldl (fun acc a =>
        match getAttr "href".toList a with
        | none => acc
        | some href =>
          if href = [] then acc
          else acc ++ [normalize_url (urljoin base href)]) acc
      = acc ++ links.filterMap (fun a =>
          match getAttr "href".toList a with
          | none => none
          | some href =>
            if href = [] then none
            else some (normalize_url (urljoin base href))) := by
  have hbody : (fun (acc : List (List Char)) (a : HtmlNode) =>
      match getAttr "href".toList a with
      | none => acc
      | some href =>
        if href = [] then acc
        else acc ++ [normalize_url (urljoin base href)])
    = (fun acc a =>
        match (match getAttr "href".toList a with
               | none => none
               | some href =>
                 if href = [] then none
                 else some (normalize_url (urljoin base href))) with
        | none => acc
        | some u => acc ++ [u]) := by
    funext acc a
    rcases getAttr "href".toList a with _ | href
    · rfl
    · by_cases he : href = [] <;> simp [he]
  rw [hbody]
  exact foldl_skip_append _ links

theorem resolvedList_eq_filterMap (html : HtmlNode) (base : List Char) :
    resolvedList html base =
      (productLinks html).filterMap (fun a =>
        match getAttr "href".toList a with
        | none => none
        | some href =>
          if href = [] then none
          else some (normalize_url (urljoin base href))) := by
  rw [resolvedList, resolvedRaw, List.map_filterMap]
  congr 1
  funext a
  rcases getAttr "href".toList a with _ | href
  · rfl
  · by_cases he : href = [] <;> simp [he]

theorem dictFromKeysGo_eq_foldl (l : List (List Char)) :
    ∀ acc seen : List (List Char), (∀ x, x ∈ seen ↔ x ∈ acc) →
      l.foldl (fun acc x => if x ∈ acc then acc else acc ++ [x]) acc
        = acc ++ dictFromKeysGo seen l := by
  induction l with
  | nil => intro acc seen _; simp [dictFromKeysGo]
  | cons x xs ih =>
    intro acc seen hmem
    simp only [List.foldl_cons, dictFromKeysGo]
    by_cases hx : x ∈ seen
    · rw [if_pos ((hmem x).mp hx), if_pos hx, ih acc seen hmem]
    · rw [if_neg (fun h => hx ((hmem x).mpr h)), if_neg hx,
        ih (acc ++ [x]) (x :: seen) (by intro y; simp [hmem y, or_comm]),
        List.append_assoc]
      rfl

theorem mem_dictFromKeysGo (u : List Char) (l : List (List Char)) :
    ∀ seen, u ∈ dictFromKeysGo seen l ↔ (u ∈ l ∧ u ∉ seen) := by
  induction l with
  | nil => intro seen; simp [dictFromKeysGo]
  | cons x xs ih =>
    intro seen
    simp only [dictFromKeysGo]
    by_cases hx : x ∈ seen
    · rw [if_pos hx, ih seen]
      constructor
      · rintro ⟨h1, h2⟩; exact ⟨List.mem_cons_of_mem x h1, h2⟩
      · rintro ⟨h1, h2⟩
        rcases List.mem_cons.mp h1 with h | h
        · exact absurd (h ▸ hx) h2
        · exact ⟨h, h2⟩
    · rw [if_neg hx]
      simp only [List.mem_cons, ih (x :: seen), List.mem_cons]
      constructor
      · rintro (h | ⟨h1, h2⟩)
        · simp [h, hx]
        · exact ⟨Or.inr h1, fun hs => h2 (Or.inr hs)⟩
      · rintro ⟨h | h, h2⟩
        · exact Or.inl h
        · by_cases hu : u = x
          · exact Or.inl hu
          · exact Or.inr ⟨h, fun hs => h2 (by rcases hs with hs | hs; exact absurd hs hu; exact hs)⟩

theorem nodup_dictFromKeysGo (l : List (List Char)) :
    ∀ seen, (dictFromKeysGo seen l).Nodup := by
  induction l with
  | nil => intro seen; simp [dictFromKeysGo]
  | cons x xs ih =>
    intro seen
    simp only [dictFromKeysGo]
    by_cases hx : x ∈ seen
    · rw [if_pos hx]; exact ih seen
    · rw [if_neg hx]
      refine List.nodup_cons.mpr ⟨fun hmem => ?_, ih (x :: seen)⟩
      exact ((mem_dictFromKeysGo x xs (x :: seen)).mp hmem).2 (List.mem_cons_self x seen)

theorem dictFromKeysGo_sublist (l : List (List Char)) :
    ∀ seen, (dictFromKeysGo seen l).Sublist l := by
  induction l with
  | nil => intro seen; simp [dictFromKeysGo]
  | cons x xs ih =>
    intro seen
    simp only [dictFromKeysGo]
    by_cases hx : x ∈ seen
    · rw [if_pos hx]; exact (ih seen).cons x
    · rw [if_neg hx]; exact (ih (x :: seen)).cons₂ x

/-- **C7.** The Product-Link Extractor skips every matched anchor whose link
attribute is missing or empty, resolves each remaining link against the base
URL, normalizes it, and returns the sequence de-duplicated by normalized
URL: the result equals the spec-side first-occurrence fold over the
resolved-and-normalized sequence, has the same members, contains no
duplicates, and is a sublist of it (each URL kept once, at the position of
its first occurrence, in document order). -/
theorem c7_product_link_extractor (html : HtmlNode) (base : List Char) :
    parse_category_product_urls html base = specKeepFirst (resolvedList html base)
    ∧ (∀ u, u ∈ parse_category_product_urls html base ↔ u ∈ resolvedList html base)
    ∧ (parse_category_product_urls html base).Nodup
    ∧ (parse_category_product_urls html base).Sublist (resolvedList html base) := by
  have hfold := productUrls_foldl base (productLinks html) []
  have hrl := resolvedList_eq_filterMap html base
  have hmain : parse_category_product_urls html base
      = dictFromKeys (resolvedList html base) := by
    rw [parse_category_product_urls]
    rw [hfold, List.nil_append, hrl]
  refine ⟨?_, ?_, ?_, ?_⟩
  · rw [hmain, specKeepFirst,
      dictFromKeysGo_eq_foldl (resolvedList html base) [] [] (by simp),
      List.nil_append]
    rfl
  · intro u
    rw [hmain]
    rw [dictFromKeys]
    rw [mem_dictFromKeysGo]
    simp
  · rw [hmain]; exact nodup_dictFromKeysGo _ []
  · rw [hmain]; exact dictFromKeysGo_sublist _ []

/-- Witness for C7 on a concrete category page: two anchors resolving to
the same normalized URL yield one entry at the first position, empty and
missing link attributes are skipped. -/
theorem c7_product_link_extractor_witness :
    parse_category_product_urls dupLinkDoc "https://www.konga.com/c?page=9".toList =
      ["https://www.konga.com/p/x".toList, "https://o.test/q".toList]
    ∧ (parse_category_product_urls dupLinkDoc "https://www.konga.com/c?page=9".toList).Nodup
    ∧ "https://www.konga.com/p/x".toList ∈
        parse_category_product_urls dupLinkDoc "https://www.konga.com/c?page=9".toList := by
  refine ⟨by decide, (c7_product_link_extractor dupLinkDoc _).2.2.1, ?_⟩
  exact ((c7_product_link_extractor dupLinkDoc "https://www.konga.com/c?page=9".toList).2.1
    _).mpr (by decide)
/-! ## Claims C3 and C4: selector correspondence lemmas -/

theorem head?_filterMap_if (q : HtmlNode → Bool) (l : List (List HtmlNode × HtmlNode)) :
    (l.filterMap (fun pn => if q pn.2 then some pn.2 else none)).head?
      = (l.map (fun pn => pn.2)).find? q := by
  induction l with
  | nil => rfl
  | cons pn rest ih =>
    simp only [List.filterMap_cons, List.map_cons, List.find?_cons]
    by_cases h : q pn.2
    · simp [h]
    · simp [h, ih]

mutual
theorem find?_descendantsFrom (tags : List (List Char)) (path : List HtmlNode)
    (n : HtmlNode) :
    ((descendantsFrom path n).map (fun pn => pn.2)).find? (nodeTagIn tags)
      = firstDescWithTag tags n :=
  match n with
  | .text _ => rfl
  | .elem t cls attrs children =>
    find?_descendantsList tags (path ++ [HtmlNode.elem t cls attrs children]) children

theorem find?_descendantsList (tags : List (List Char)) (path : List HtmlNode)
    (cs : List HtmlNode) :
    ((descendantsList path cs).map (fun pn => pn.2)).find? (nodeTagIn tags)
      = firstDescWithTagList tags cs :=
  match cs with
  | [] => rfl
  | c :: rest => by
    rw [descendantsList, firstDescWithTagList]
    simp only [List.map_cons, List.map_append, List.find?_cons]
    by_cases h : nodeTagIn tags c
    · simp [h]
    · simp only [h, if_false, Bool.false_eq_true, List.find?_append,
        find?_descendantsFrom tags path c, find?_descendantsList tags path rest]
      rcases firstDescWithTag tags c with _ | r <;> simp
end

theorem any_single_tag_chain (t : List Char) (path : List HtmlNode) (n : HtmlNode) :
    (List.any [(⟨[], ⟨some t, []⟩⟩ : ChainSel)] (fun ch => matchesChain ch path n))
      = nodeTagIn [t] n := by
  rcases n with s | ⟨tag, cls, attrs, children⟩
  · rfl
  · simp [matchesChain, matchesSimple, embedsIn, nodeTagIn, List.contains_cons,
      Bool.or_false, Bool.and_true, eq_comm]

theorem selectOne_single_tag (t : List Char) (root : HtmlNode) :
    selectOne root [⟨[], ⟨some t, []⟩⟩] = firstDescWithTag [t] root := by
  rw [selectOne, select]
  have hcong : (descendantsFrom [] root).filterMap
      (fun pn => if List.any [(⟨[], ⟨some t, []⟩⟩ : ChainSel)]
          (fun ch => matchesChain ch pn.1 pn.2) then some pn.2 else none)
    = (descendantsFrom [] root).filterMap
      (fun pn => if nodeTagIn [t] pn.2 then some pn.2 else none) := by
    apply List.filterMap_congr
    intro pn _
    rw [any_single_tag_chain]
  rw [hcong, head?_filterMap_if, find?_descendantsFrom]
/-- **C3, counterexample.** A matched review block whose only heading is an
`h2`: the first heading-level sub-element has text `"T"`, but the extracted
title is the empty string (the extractor only queries `h3`), so the claim
fails as stated. -/
theorem c3_title_counterexample :
    select h2Doc selReviewBlocks = [h2Block]
    ∧ specTitleAnyHeading h2Block = "T".toList
    ∧ parse_reviews h2Doc = [⟨[], [], "B".toList, [], []⟩]
    ∧ ("T".toList : List Char) ≠ [] := by
  exact ⟨rfl, by decide, by decide, by decide⟩

/-- **C3, amended.** For every matched review block, the extracted title
equals the text of the first `h3` sub-element of the block — not of an
arbitrary heading level — and equals the empty string when the block
contains no `h3` sub-element; every emitted record carries that title. -/
theorem c3_title_amended (block : HtmlNode) :
    blockTitle block = specTitleH3 block
    ∧ (firstDescWithTag ["h3".toList] block = none → blockTitle block = [])
    ∧ (∀ r, parseBlock block = some r → r.title = specTitleH3 block) := by
  have h1 : blockTitle block = specTitleH3 block := by
    rw [blockTitle, specTitleH3, selH3, selectOne_single_tag]
  refine ⟨h1, ?_, ?_⟩
  · intro hnone
    rw [h1, specTitleH3, hnone]
  · intro r hr
    rw [parseBlock] at hr
    split at hr
    · exact absurd hr (by simp)
    · cases hr
      exact h1

/-- Witness for the amended C3: the complete review block has an `h3` with
text `"Great phone"`, the record's title is exactly that text, and both
agree with the first-`h3` contract. -/
theorem c3_title_amended_witness :
    ("Great phone".toList : List Char) = specTitleH3 reviewBlock
    ∧ blockTitle reviewBlock = specTitleH3 reviewBlock :=
  ⟨(c3_title_amended reviewBlock).2.2
    ⟨"Great phone".toList, "4.5".toList, "Works well".toList,
     "Jane Doe".toList, "12/01/2024".toList⟩ (by decide),
   (c3_title_amended reviewBlock).1⟩

/-- **C4, counterexample.** A metadata author span with text `"By  Jane"`
(two spaces): the claim's "text with exactly that prefix stripped" is
`" Jane"`, but the code also strips the surrounding whitespace
(`author_text[3:].strip()`) and extracts `"Jane"`. -/
theorem c4_author_counterexample :
    getTextStrip doubleSpaceSpan = "By  Jane".toList
    ∧ specAuthorExact "By  Jane".toList = " Jane".toList
    ∧ (parse_reviews doubleSpaceDoc).map (fun r => r.author) = ["Jane".toList]
    ∧ ("Jane".toList : List Char) ≠ " Jane".toList := by
  exact ⟨by decide, by decide, by decide, by decide⟩

/-- **C4, amended.** For every review block whose metadata container has a
second span: if the span's text begins with `"by "` compared
case-insensitively, the extracted author is that text with the prefix
stripped *and then stripped of surrounding whitespace*; otherwise the author
is the full span text verbatim. -/
theorem c4_author_amended (block m s1 s2 : HtmlNode) (srest : List HtmlNode)
    (hm : selectOne block selMetaDiv = some m)
    (hs : select m selSpan = s1 :: s2 :: srest) :
    (blockDateAuthor block).2 = stripByPrefix (getTextStrip s2)
    ∧ (((getTextStrip s2).map Char.toLower).take 3 = "by ".toList →
        (blockDateAuthor block).2 = stripChars ((getTextStrip s2).drop 3))
    ∧ (((getTextStrip s2).map Char.toLower).take 3 ≠ "by ".toList →
        (blockDateAuthor block).2 = getTextStrip s2)
    ∧ (∀ r, parseBlock block = some r → r.author = stripByPrefix (getTextStrip s2)) := by
  have h1 : (blockDateAuthor block).2 = stripByPrefix (getTextStrip s2) := by
    simp only [blockDateAuthor, hm, hs]
    rfl
  refine ⟨h1, ?_, ?_, ?_⟩
  · intro hby
    rw [h1, stripByPrefix, if_pos hby]
  · intro hby
    rw [h1, stripByPrefix, if_neg hby]
  · intro r hr
    rw [parseBlock] at hr
    split at hr
    · exact absurd hr (by simp)
    · cases hr
      exact h1

/-- Witness for the amended C4: with span text `"By  Jane"` the prefix test
succeeds and the author is `"Jane"` — the prefix-stripped remainder with its
surrounding whitespace removed. -/
theorem c4_author_amended_witness :
    (blockDateAuthor doubleSpaceBlock).2 = stripChars (("By  Jane".toList).drop 3)
    ∧ stripChars (("By  Jane".toList).drop 3) = "Jane".toList :=
  ⟨(c4_author_amended doubleSpaceBlock dsMetaDiv dsDateSpan doubleSpaceSpan []
      rfl rfl).2.1 (by decide),
   by decide⟩
/-! ## URL-parser stage lemmas -/

theorem splitOnceChar_of_not_mem {c : Char} {l : List Char} (h : c ∉ l) :
    splitOnceChar c l = none := by
  induction l with
  | nil => rfl
  | cons x xs ih =>
    rw [splitOnceChar, if_neg (fun he => h (List.mem_cons.mpr (Or.inl he.symm))),
      ih (fun hm => h (List.mem_cons_of_mem x hm))]
    rfl

theorem splitOnceChar_append {c : Char} {a : List Char} (b : List Char) (h : c ∉ a) :
    splitOnceChar c (a ++ c :: b) = some (a, b) := by
  induction a with
  | nil => simp [splitOnceChar]
  | cons x xs ih =>
    rw [List.cons_append, splitOnceChar,
      if_neg (fun he => h (List.mem_cons.mpr (Or.inl he.symm))),
      ih (fun hm => h (List.mem_cons_of_mem x hm))]
    rfl

theorem splitOnceChar_eq_some {c : Char} {l a b : List Char}
    (h : splitOnceChar c l = some (a, b)) : l = a ++ c :: b ∧ c ∉ a := by
  induction l generalizing a with
  | nil => exact absurd h (by simp [splitOnceChar])
  | cons x xs ih =>
    rw [splitOnceChar] at h
    by_cases hx : x = c
    · rw [if_pos hx] at h
      cases h
      subst hx
      exact ⟨rfl, List.not_mem_nil _⟩
    · rw [if_neg hx] at h
      rcases hr : splitOnceChar c xs with _ | ⟨a', b'⟩
      · rw [hr] at h; cases h
      · rw [hr] at h
        cases h
        rcases ih hr with ⟨h1, h2⟩
        exact ⟨by rw [h1]; rfl,
          by intro hm; rcases List.mem_cons.mp hm with hh | hh;
             exact hx hh.symm; exact h2 hh⟩

theorem splitOnceChar_eq_none {c : Char} {l : List Char}
    (h : splitOnceChar c l = none) : c ∉ l := by
  induction l with
  | nil => exact List.not_mem_nil _
  | cons x xs ih =>
    rw [splitOnceChar] at h
    by_cases hx : x = c
    · rw [if_pos hx] at h; cases h
    · rw [if_neg hx] at h
      intro hm
      rcases List.mem_cons.mp hm with hh | hh
      · exact hx hh.symm
      · rcases hr : splitOnceChar c xs with _ | p
        · exact ih hr hh
        · rw [hr] at h; cases h

theorem splitLastChar_append {c : Char} {b : List Char} (a : List Char) (h : c ∉ b) :
    splitLastChar c (a ++ c :: b) = some (a, b) := by
  rw [splitLastChar]
  have : (a ++ c :: b).reverse = b.reverse ++ c :: a.reverse := by
    simp
  rw [this, splitOnceChar_append _ (by simpa using h)]
  simp

theorem splitLastChar_of_not_mem {c : Char} {l : List Char} (h : c ∉ l) :
    splitLastChar c l = none := by
  rw [splitLastChar, splitOnceChar_of_not_mem (by simpa using h)]

theorem splitLastChar_eq_some {c : Char} {l a b : List Char}
    (h : splitLastChar c l = some (a, b)) : l = a ++ c :: b ∧ c ∉ b := by
  rw [splitLastChar] at h
  rcases hr : splitOnceChar c l.reverse with _ | ⟨x, y⟩
  · rw [hr] at h; cases h
  · rw [hr] at h
    cases h
    rcases splitOnceChar_eq_some hr with ⟨h1, h2⟩
    constructor
    · have := congrArg List.reverse h1
      simpa using this
    · simpa using h2

theorem splitLastChar_eq_none {c : Char} {l : List Char}
    (h : splitLastChar c l = none) : c ∉ l := by
  rw [splitLastChar] at h
  rcases hr : splitOnceChar c l.reverse with _ | p
  · have := splitOnceChar_eq_none hr
    simpa using this
  · rw [hr] at h; cases h

theorem takeWhile_dropWhile_append {p : Char → Bool} {a b : List Char}
    (ha : ∀ c ∈ a, p c = true) (hb : ∀ x, b.head? = some x → p x = false) :
    (a ++ b).takeWhile p = a ∧ (a ++ b).dropWhile p = b := by
  induction a with
  | nil =>
    rcases b with _ | ⟨x, xs⟩
    · exact ⟨rfl, rfl⟩
    · have := hb x rfl
      simp [List.takeWhile, List.dropWhile, this]
  | cons y ys ih =>
    have hy : p y = true := ha y (List.mem_cons_self y ys)
    have := ih (fun c hc => ha c (List.mem_cons_of_mem y hc))
    simp [List.takeWhile_cons, List.dropWhile_cons, hy, this.1, this.2]

theorem dropWhile_eq_self_of_head {p : Char → Bool} {l : List Char}
    (h : ∀ x, l.head? = some x → p x = false) : l.dropWhile p = l := by
  rcases l with _ | ⟨x, xs⟩
  · rfl
  · simp [List.dropWhile_cons, h x rfl]

theorem filter_eq_self_of_all {p : Char → Bool} {l : List Char}
    (h : ∀ c ∈ l, p c = true) : l.filter p = l := by
  induction l with
  | nil => rfl
  | cons x xs ih =>
    rw [List.filter_cons, if_pos (h x (List.mem_cons_self x xs)),
      ih (fun c hc => h c (List.mem_cons_of_mem x hc))]

theorem validScheme_not_colon {s : List Char} (h : validScheme s = true) : ':' ∉ s := by
  rcases s with _ | ⟨x, xs⟩
  · exact List.not_mem_nil _
  · rw [validScheme, Bool.and_eq_true, List.all_eq_true] at h
    intro hm
    have := h.2 ':' hm
    exact absurd this (by decide)

theorem validScheme_ne_nil {s : List Char} (h : validScheme s = true) : s ≠ [] := by
  intro he; rw [he] at h; exact absurd h (by decide)

theorem schemeChar_not_unsafe {c : Char} (h : isSchemeChar c = true) :
    isUnsafeUrlByte c = false := by
  rcases hu : isUnsafeUrlByte c with _ | _
  · rfl
  · rw [isUnsafeUrlByte, Bool.or_eq_true, Bool.or_eq_true] at hu
    rcases hu with (hc | hc) | hc <;>
      (rw [decide_eq_true_iff] at hc; subst hc; exact absurd h (by decide))

theorem alpha_not_c0space {c : Char} (h : c.isAlpha = true) : isC0Space c = false := by
  rw [Char.isAlpha, Bool.or_eq_true, Char.isUpper, Char.isLower] at h
  rw [isC0Space, decide_eq_false_iff_not]
  intro hle
  rcases h with h | h <;>
  · rw [Bool.and_eq_true] at h
    have h1 := h.1
    rw [decide_eq_true_iff] at h1
    have : ('A' : Char).val ≤ c.val ∨ ('a' : Char).val ≤ c.val := by
      first
        | exact Or.inl h1
        | exact Or.inr h1
    have hv : (65 : Nat) ≤ c.toNat ∨ (97 : Nat) ≤ c.toNat := by
      rcases this with hh | hh
      · exact Or.inl (by exact_mod_cast hh)
      · exact Or.inr (by exact_mod_cast hh)
    omega

theorem schemeSplit_extract {s : List Char} (d r : List Char)
    (hs : validScheme s = true) :
    schemeSplit d (s ++ ':' :: r) = (s.map Char.toLower, r) := by
  rw [schemeSplit, splitOnceChar_append r (validScheme_not_colon hs)]
  dsimp only
  rw [if_pos hs]

theorem schemeSplit_of_not_mem {u : List Char} (d : List Char) (h : ':' ∉ u) :
    schemeSplit d u = (d, u) := by
  rw [schemeSplit, splitOnceChar_of_not_mem h]

theorem schemeSplit_of_invalid {u : List Char} (d : List Char)
    (h : ∀ pre post, u = pre ++ ':' :: post → ':' ∉ pre → validScheme pre = false) :
    schemeSplit d u = (d, u) := by
  rw [schemeSplit]
  rcases hr : splitOnceChar ':' u with _ | ⟨pre, post⟩
  · rfl
  · rcases splitOnceChar_eq_some hr with ⟨h1, h2⟩
    dsimp only
    rw [if_neg (by rw [h pre post h1 h2]; exact Bool.false_ne_true)]
/-! ## Claim C5 -/

/-- **C5, counterexample.** The URL Normalizer does not leave the scheme
untouched: `normalize("HTTPS://x.test/p?a=1#frag")` is
`"https://x.test/p"`, with the scheme lowercased by `urlparse`, not
`"HTTPS://x.test/p"` as the claim requires. -/
theorem c5_normalize_counterexample :
    normalize_url "HTTPS://x.test/p?a=1#frag".toList = "https://x.test/p".toList
    ∧ normalize_url "HTTPS://x.test/p?a=1#frag".toList ≠ "HTTPS://x.test/p".toList := by
  exact ⟨by decide, by decide⟩

theorem unsafeFree_append (a b : List Char)
    (ha : ∀ c ∈ a, isUnsafeUrlByte c = false)
    (hb : ∀ c ∈ b, isUnsafeUrlByte c = false) :
    ∀ c ∈ a ++ b, isUnsafeUrlByte c = false := by
  intro c hc
  rcases List.mem_append.mp hc with hm | hm
  · exact ha c hm
  · exact hb c hm

theorem unsafeFree_cons (x : Char) (l : List Char)
    (hx : isUnsafeUrlByte x = false)
    (hl : ∀ c ∈ l, isUnsafeUrlByte c = false) :
    ∀ c ∈ x :: l, isUnsafeUrlByte c = false := by
  intro c hc
  rcases List.mem_cons.mp hc with hm | hm
  · exact hm ▸ hx
  · exact hl c hm

theorem resplitParams_of_not_semi (scheme : List Char) {x : List Char} (h : ';' ∉ x) :
    resplitParams scheme x = (x, []) := by
  rw [resplitParams, if_neg (fun hc => h hc.2)]

theorem rejoinParams_nil (path : List Char) : rejoinParams path [] = path := by
  rw [rejoinParams, if_neg (fun hc => hc rfl)]

theorem urlsplit_wf (s h p q f : List Char)
    (hs : validScheme s = true)
    (hh : ∀ c ∈ h, netlocDelim c = false)
    (hhu : ∀ c ∈ h, isUnsafeUrlByte c = false)
    (hp : p = [] ∨ p.take 1 = ['/'])
    (hpq : '?' ∉ p) (hph : '#' ∉ p)
    (hpu : ∀ c ∈ p, isUnsafeUrlByte c = false)
    (hqh : '#' ∉ q) (hqu : ∀ c ∈ q, isUnsafeUrlByte c = false)
    (hfu : ∀ c ∈ f, isUnsafeUrlByte c = false) :
    urlsplit [] (s ++ ':' :: '/' :: '/' :: (h ++ (p ++ '?' :: (q ++ '#' :: f)))) =
      ⟨s.map Char.toLower, h, p, q, f⟩ := by
  have hschars : ∀ c ∈ s, isSchemeChar c = true := by
    rcases s with _ | ⟨s0, srest⟩
    · intro c hc; cases hc
    · rw [validScheme, Bool.and_eq_true, List.all_eq_true] at hs
      exact hs.2
  have hheadok : ∀ x,
      (s ++ ':' :: '/' :: '/' :: (h ++ (p ++ '?' :: (q ++ '#' :: f)))).head? = some x →
      isC0Space x = false := by
    rcases s with _ | ⟨s0, srest⟩
    · exact absurd hs (by decide)
    · intro x hx
      have hx' : some s0 = some x := by rw [← hx]; rfl
      cases hx'
      have hs0 : s0.isAlpha = true := by
        rw [validScheme, Bool.and_eq_true] at hs
        exact hs.1
      exact alpha_not_c0space hs0
  have hall : ∀ c ∈ s ++ ':' :: '/' :: '/' :: (h ++ (p ++ '?' :: (q ++ '#' :: f))),
      isUnsafeUrlByte c = false :=
    unsafeFree_append s (':' :: '/' :: '/' :: (h ++ (p ++ '?' :: (q ++ '#' :: f))))
      (fun c hc => schemeChar_not_unsafe (hschars c hc))
      (unsafeFree_cons ':' _ (by decide)
        (unsafeFree_cons '/' _ (by decide)
          (unsafeFree_cons '/' _ (by decide)
            (unsafeFree_append h (p ++ '?' :: (q ++ '#' :: f)) hhu
              (unsafeFree_append p ('?' :: (q ++ '#' :: f)) hpu
                (unsafeFree_cons '?' _ (by decide)
                  (unsafeFree_append q ('#' :: f) hqu
                    (unsafeFree_cons '#' f (by decide) hfu))))))))
  rw [urlsplit]
  have hdrop : (s ++ ':' :: '/' :: '/' :: (h ++ (p ++ '?' :: (q ++ '#' :: f)))).dropWhile
      isC0Space = s ++ ':' :: '/' :: '/' :: (h ++ (p ++ '?' :: (q ++ '#' :: f))) :=
    dropWhile_eq_self_of_head hheadok
  have hfilt : (s ++ ':' :: '/' :: '/' :: (h ++ (p ++ '?' :: (q ++ '#' :: f)))).filter
      (fun c => !isUnsafeUrlByte c)
      = s ++ ':' :: '/' :: '/' :: (h ++ (p ++ '?' :: (q ++ '#' :: f))) :=
    filter_eq_self_of_all (fun c hc => by rw [Bool.not_eq_true']; exact hall c hc)
  rw [hdrop, hfilt]
  rw [schemeSplit_extract [] _ hs]
  dsimp only
  have hbody : netlocSplit ('/' :: '/' :: (h ++ (p ++ '?' :: (q ++ '#' :: f))))
      = (h, p ++ '?' :: (q ++ '#' :: f)) := by
    rw [netlocSplit, if_pos (by rfl)]
    have hhead : ∀ x, (p ++ '?' :: (q ++ '#' :: f)).head? = some x →
        (!netlocDelim x) = false := by
      intro x hx
      rcases hp with hp | hp
      · subst hp
        have hx' : some '?' = some x := by rw [← hx]; rfl
        cases hx'
        decide
      · rcases p with _ | ⟨p0, prest⟩
        · cases hp
        · rw [List.take, List.take] at hp
          cases hp
          have hx' : some '/' = some x := by rw [← hx]; rfl
          cases hx'
          decide
    have := @takeWhile_dropWhile_append (fun c => !netlocDelim c)
      h (p ++ '?' :: (q ++ '#' :: f))
      (fun c hc => by show (!netlocDelim c) = true; rw [hh c hc]; rfl) hhead
    simp only [List.drop_succ_cons, List.drop_zero]
    rw [this.1, this.2]
  rw [hbody]
  dsimp only
  have hhash : hashSplit (p ++ '?' :: (q ++ '#' :: f)) = (p ++ '?' :: q, f) := by
    rw [hashSplit]
    have hassoc : p ++ '?' :: (q ++ '#' :: f) = (p ++ '?' :: q) ++ '#' :: f := by
      simp
    rw [hassoc, splitOnceChar_append f (by
      intro hm
      simp only [List.mem_append, List.mem_cons] at hm
      rcases hm with hm | hm | hm
      · exact hph hm
      · cases hm
      · exact hqh hm)]
  rw [hhash]
  dsimp only
  have hquery : querySplit (p ++ '?' :: q) = (p, q) := by
    rw [querySplit, splitOnceChar_append q hpq]
  rw [hquery]

theorem hashSplit_of_not_mem {r : List Char} (h : '#' ∉ r) : hashSplit r = (r, []) := by
  rw [hashSplit, splitOnceChar_of_not_mem h]

theorem querySplit_of_not_mem {r : List Char} (h : '?' ∉ r) : querySplit r = (r, []) := by
  rw [querySplit, splitOnceChar_of_not_mem h]

theorem urlsplit_wf_opt (s h p : List Char) (q f : Option (List Char))
    (hs : validScheme s = true)
    (hh : ∀ c ∈ h, netlocDelim c = false)
    (hhu : ∀ c ∈ h, isUnsafeUrlByte c = false)
    (hp : p = [] ∨ p.take 1 = ['/'])
    (hpq : '?' ∉ p) (hph : '#' ∉ p)
    (hpu : ∀ c ∈ p, isUnsafeUrlByte c = false)
    (hq : ∀ qs, q = some qs → '#' ∉ qs ∧ ∀ c ∈ qs, isUnsafeUrlByte c = false)
    (hf : ∀ fs, f = some fs → ∀ c ∈ fs, isUnsafeUrlByte c = false) :
    urlsplit [] (s ++ ':' :: '/' :: '/' :: (h ++ (p ++ (optQuery q ++ optFrag f))))
      = ⟨s.map Char.toLower, h, p, q.getD [], f.getD []⟩ := by
  have hoptq_safe : ∀ c ∈ optQuery q, isUnsafeUrlByte c = false := by
    rcases q with _ | qs
    · intro c hc; cases hc
    · exact unsafeFree_cons '?' qs (by decide) (hq qs rfl).2
  have hoptf_safe : ∀ c ∈ optFrag f, isUnsafeUrlByte c = false := by
    rcases f with _ | fs
    · intro c hc; cases hc
    · exact unsafeFree_cons '#' fs (by decide) (hf fs rfl)
  have hoptq_hash : '#' ∉ optQuery q := by
    rcases q with _ | qs
    · intro hm; cases hm
    · intro hm
      rcases List.mem_cons.mp hm with hm' | hm'
      · exact absurd hm' (by decide)
      · exact (hq qs rfl).1 hm'
  have hschars : ∀ c ∈ s, isSchemeChar c = true := by
    rcases s with _ | ⟨s0, srest⟩
    · intro c hc; cases hc
    · rw [validScheme, Bool.and_eq_true, List.all_eq_true] at hs
      exact hs.2
  have hheadok : ∀ x,
      (s ++ ':' :: '/' :: '/' :: (h ++ (p ++ (optQuery q ++ optFrag f)))).head?
        = some x → isC0Space x = false := by
    rcases s with _ | ⟨s0, srest⟩
    · exact absurd hs (by decide)
    · intro x hx
      have hx' : some s0 = some x := by rw [← hx]; rfl
      cases hx'
      have hs0 : s0.isAlpha = true := by
        rw [validScheme, Bool.and_eq_true] at hs
        exact hs.1
      exact alpha_not_c0space hs0
  have hall : ∀ c ∈ s ++ ':' :: '/' :: '/' :: (h ++ (p ++ (optQuery q ++ optFrag f))),
      isUnsafeUrlByte c = false :=
    unsafeFree_append s (':' :: '/' :: '/' :: (h ++ (p ++ (optQuery q ++ optFrag f))))
      (fun c hc => schemeChar_not_unsafe (hschars c hc))
      (unsafeFree_cons ':' _ (by decide)
        (unsafeFree_cons '/' _ (by decide)
          (unsafeFree_cons '/' _ (by decide)
            (unsafeFree_append h (p ++ (optQuery q ++ optFrag f)) hhu
              (unsafeFree_append p (optQuery q ++ optFrag f) hpu
                (unsafeFree_append (optQuery q) (optFrag f)
                  hoptq_safe hoptf_safe))))))
  rw [urlsplit]
  have hdrop : (s ++ ':' :: '/' :: '/' :: (h ++ (p ++ (optQuery q ++ optFrag f)))).dropWhile
      isC0Space = s ++ ':' :: '/' :: '/' :: (h ++ (p ++ (optQuery q ++ optFrag f))) :=
    dropWhile_eq_self_of_head hheadok
  have hfilt : (s ++ ':' :: '/' :: '/' :: (h ++ (p ++ (optQuery q ++ optFrag f)))).filter
      (fun c => !isUnsafeUrlByte c)
      = s ++ ':' :: '/' :: '/' :: (h ++ (p ++ (optQuery q ++ optFrag f))) :=
    filter_eq_self_of_all (fun c hc => by rw [Bool.not_eq_true']; exact hall c hc)
  rw [hdrop, hfilt]
  rw [schemeSplit_extract [] _ hs]
  dsimp only
  have hheadnd : ∀ x, (p ++ (optQuery q ++ optFrag f)).head? = some x →
      (!netlocDelim x) = false := by
    intro x hx
    rcases hp with hp0 | hp0
    · subst hp0
      rw [List.nil_append] at hx
      rcases q with _ | qs
      · rcases f with _ | fs
        · exact Option.noConfusion hx
        · have hx' : some '#' = some x := by rw [← hx]; rfl
          cases hx'
          decide
      · have hx' : some '?' = some x := by rw [← hx]; rfl
        cases hx'
        decide
    · rcases p with _ | ⟨p0, prest⟩
      · cases hp0
      · rw [List.take, List.take] at hp0
        cases hp0
        have hx' : some '/' = some x := by rw [← hx]; rfl
        cases hx'
        decide
  have hbody : netlocSplit ('/' :: '/' :: (h ++ (p ++ (optQuery q ++ optFrag f))))
      = (h, p ++ (optQuery q ++ optFrag f)) := by
    rw [netlocSplit, if_pos (by rfl)]
    have := @takeWhile_dropWhile_append (fun c => !netlocDelim c)
      h (p ++ (optQuery q ++ optFrag f))
      (fun c hc => by show (!netlocDelim c) = true; rw [hh c hc]; rfl) hheadnd
    simp only [List.drop_succ_cons, List.drop_zero]
    rw [this.1, this.2]
  rw [hbody]
  dsimp only
  have hhash : hashSplit (p ++ (optQuery q ++ optFrag f))
      = (p ++ optQuery q, f.getD []) := by
    rcases f with _ | fs
    · have hne : '#' ∉ p ++ (optQuery q ++ optFrag none) := by
        intro hm
        rcases List.mem_append.mp hm with hm' | hm'
        · exact hph hm'
        · rcases List.mem_append.mp hm' with hm'' | hm''
          · exact hoptq_hash hm''
          · cases hm''
      rw [hashSplit_of_not_mem hne]
      simp [optFrag]
    · show hashSplit (p ++ (optQuery q ++ '#' :: fs)) = (p ++ optQuery q, fs)
      have hassoc : p ++ (optQuery q ++ '#' :: fs) = (p ++ optQuery q) ++ '#' :: fs := by
        simp
      rw [hashSplit, hassoc, splitOnceChar_append fs (by
        intro hm
        rcases List.mem_append.mp hm with hm' | hm'
        · exact hph hm'
        · exact hoptq_hash hm')]
  rw [hhash]
  dsimp only
  have hquery : querySplit (p ++ optQuery q) = (p, q.getD []) := by
    rcases q with _ | qs
    · have hne : '?' ∉ p ++ optQuery none := by
        intro hm
        rcases List.mem_append.mp hm with hm' | hm'
        · exact hpq hm'
        · cases hm'
      rw [querySplit_of_not_mem hne]
      simp [optQuery]
    · show querySplit (p ++ '?' :: qs) = (p, qs)
      rw [querySplit, splitOnceChar_append qs hpq]
  rw [hquery]

/-- **C5, amended.** For every well-formed absolute URL with nonempty host
`scheme://host[path][?query][#fragment]` — query and fragment each optional,
`;` parameters allowed in the path — the URL Normalizer returns the URL
with the query string and fragment removed and the scheme lowercased; the
host is unchanged, and the path is unchanged provided it round-trips
through `urlparse`'s params split (which holds unless the last path segment
ends in a dangling `;` with an empty parameter part, a marker `urlparse`
discards).  It is a total pure function. -/
theorem c5_normalize_amended (s h p : List Char) (q f : Option (List Char))
    (hs : validScheme s = true)
    (hh : ∀ c ∈ h, netlocDelim c = false)
    (hhu : ∀ c ∈ h, isUnsafeUrlByte c = false)
    (hhne : h ≠ [])
    (hp : p = [] ∨ p.take 1 = ['/'])
    (hpq : '?' ∉ p) (hph : '#' ∉ p)
    (hpu : ∀ c ∈ p, isUnsafeUrlByte c = false)
    (hpsemi : rejoinParams (resplitParams (s.map Char.toLower) p).1
        (resplitParams (s.map Char.toLower) p).2 = p)
    (hq : ∀ qs, q = some qs → '#' ∉ qs ∧ ∀ c ∈ qs, isUnsafeUrlByte c = false)
    (hf : ∀ fs, f = some fs → ∀ c ∈ fs, isUnsafeUrlByte c = false) :
    normalize_url (s ++ ':' :: '/' :: '/' :: (h ++ (p ++ (optQuery q ++ optFrag f))))
      = s.map Char.toLower ++ ':' :: '/' :: '/' :: (h ++ p) := by
  rw [normalize_url, urlparse,
    urlsplit_wf_opt s h p q f hs hh hhu hp hpq hph hpu hq hf]
  dsimp only
  rw [urlunparse]
  dsimp only
  rw [hpsemi]
  rw [urlunsplit]
  have hpfix : (if p ≠ [] ∧ p.take 1 ≠ ['/'] then '/' :: p else p) = p := by
    rcases hp with hp | hp
    · rw [if_neg (fun hc => hc.1 hp)]
    · rw [if_neg (fun hc => hc.2 hp)]
  have hschemene : s.map Char.toLower ≠ [] :=
    fun hm => validScheme_ne_nil hs (List.map_eq_nil_iff.mp hm)
  have hqe : ¬(([] : List Char) ≠ []) := fun hc => hc rfl
  rw [if_pos (Or.inl hhne), hpfix, if_pos hschemene, if_neg hqe, if_neg hqe]
  simp [List.cons_append]

/-- Witness for the amended C5: the query-only URL `https://x.test/p?a=1`
normalizes to `https://x.test/p`, and `HTTPS://x.test/a;b?q#f` — uppercase
scheme, `;` parameters in the path, query and fragment both present —
normalizes to `https://x.test/a;b`. -/
theorem c5_normalize_amended_witness :
    normalize_url ("https".toList ++ ':' :: '/' :: '/' :: ("x.test".toList ++
        ("/p".toList ++ (optQuery (some "a=1".toList) ++ optFrag none))))
      = "https".toList.map Char.toLower ++ ':' :: '/' :: '/' ::
          ("x.test".toList ++ "/p".toList)
    ∧ normalize_url ("HTTPS".toList ++ ':' :: '/' :: '/' :: ("x.test".toList ++
        ("/a;b".toList ++ (optQuery (some "q".toList) ++ optFrag (some "f".toList)))))
      = "HTTPS".toList.map Char.toLower ++ ':' :: '/' :: '/' ::
          ("x.test".toList ++ "/a;b".toList) :=
  ⟨c5_normalize_amended "https".toList "x.test".toList "/p".toList
    (some "a=1".toList) none (by decide) (by decide) (by decide) (by decide)
    (by right; rfl) (by decide) (by decide) (by decide) (by decide)
    (fun qs hqs => by cases hqs; exact ⟨by decide, by decide⟩)
    (fun fs hfs => Option.noConfusion hfs),
   c5_normalize_amended "HTTPS".toList "x.test".toList "/a;b".toList
    (some "q".toList) (some "f".toList) (by decide) (by decide) (by decide)
    (by decide) (by right; rfl) (by decide) (by decide) (by decide) (by decide)
    (fun qs hqs => by cases hqs; exact ⟨by decide, by decide⟩)
    (fun fs hfs => by cases hfs; decide)⟩
/-! ## Claim C6: character lemmas -/

theorem char_toNat_ofNat {n : Nat} (h : n < 55296) : (Char.ofNat n).toNat = n := by
  rw [Char.ofNat, dif_pos (Or.inl h)]
  rfl

theorem isUpper_toNat {c : Char} : c.isUpper = true ↔ (65 ≤ c.toNat ∧ c.toNat ≤ 90) := by
  rw [Char.isUpper]
  constructor
  · intro h
    rw [Bool.and_eq_true] at h
    refine ⟨?_, ?_⟩
    · have := h.1; rw [decide_eq_true_iff] at this; exact_mod_cast this
    · have := h.2; rw [decide_eq_true_iff] at this; exact_mod_cast this
  · intro ⟨h1, h2⟩
    rw [Bool.and_eq_true]
    constructor <;> rw [decide_eq_true_iff]
    · exact_mod_cast h1
    · exact_mod_cast h2

theorem isLower_toNat {c : Char} : c.isLower = true ↔ (97 ≤ c.toNat ∧ c.toNat ≤ 122) := by
  rw [Char.isLower]
  constructor
  · intro h
    rw [Bool.and_eq_true] at h
    refine ⟨?_, ?_⟩
    · have := h.1; rw [decide_eq_true_iff] at this; exact_mod_cast this
    · have := h.2; rw [decide_eq_true_iff] at this; exact_mod_cast this
  · intro ⟨h1, h2⟩
    rw [Bool.and_eq_true]
    constructor <;> rw [decide_eq_true_iff]
    · exact_mod_cast h1
    · exact_mod_cast h2

theorem toLower_toLower (c : Char) : Char.toLower (Char.toLower c) = Char.toLower c := by
  rw [Char.toLower, Char.toLower]
  by_cases h : c.toNat ≥ 65 ∧ c.toNat ≤ 90
  · rw [if_pos h]
    have h32 : (Char.ofNat (c.toNat + 32)).toNat = c.toNat + 32 :=
      char_toNat_ofNat (by omega)
    rw [if_neg (by rw [h32]; omega)]
  · rw [if_neg h, if_neg h]

theorem toLower_of_not_upper {c : Char} (h : ¬(c.toNat ≥ 65 ∧ c.toNat ≤ 90)) :
    Char.toLower c = c := by
  rw [Char.toLower, if_neg h]

theorem isSchemeChar_of_isAlpha {c : Char} (h : c.isAlpha = true) :
    isSchemeChar c = true := by
  simp [isSchemeChar, h]

theorem isAlpha_toLower {c : Char} (h : c.isAlpha = true) :
    (Char.toLower c).isAlpha = true := by
  rw [Char.isAlpha, Bool.or_eq_true] at h ⊢
  by_cases hu : c.toNat ≥ 65 ∧ c.toNat ≤ 90
  · right
    rw [Char.toLower, if_pos hu, isLower_toNat, char_toNat_ofNat (by omega)]
    omega
  · rw [toLower_of_not_upper hu]
    exact h

theorem isSchemeChar_toLower {c : Char} (h : isSchemeChar c = true) :
    isSchemeChar (Char.toLower c) = true := by
  by_cases hu : c.toNat ≥ 65 ∧ c.toNat ≤ 90
  · apply isSchemeChar_of_isAlpha
    rw [Char.isAlpha, Bool.or_eq_true]
    right
    rw [Char.toLower, if_pos hu, isLower_toNat, char_toNat_ofNat (by omega)]
    omega
  · rw [toLower_of_not_upper hu]
    exact h

theorem map_toLower_idem (s : List Char) :
    (s.map Char.toLower).map Char.toLower = s.map Char.toLower := by
  rw [List.map_map]
  exact List.map_congr_left (fun a _ => toLower_toLower a)

theorem validScheme_map_toLower {s : List Char} (h : validScheme s = true) :
    validScheme (s.map Char.toLower) = true := by
  rcases s with _ | ⟨c, cs⟩
  · exact absurd h (by decide)
  · rw [validScheme, Bool.and_eq_true, List.all_eq_true] at h
    rw [List.map_cons, validScheme, Bool.and_eq_true, List.all_eq_true]
    refine ⟨isAlpha_toLower h.1, ?_⟩
    intro x hx
    rw [← List.map_cons] at hx
    rcases List.mem_map.mp hx with ⟨y, hy, rfl⟩
    exact isSchemeChar_toLower (h.2 y hy)

/-! ## Claim C6: stage lemmas -/

theorem head?_dropWhile (p : Char → Bool) (l : List Char) :
    ∀ x, (l.dropWhile p).head? = some x → p x = false := by
  induction l with
  | nil => intro x hx; cases hx
  | cons c cs ih =>
    intro x hx
    rw [List.dropWhile_cons] at hx
    by_cases hc : p c
    · rw [if_pos hc] at hx
      exact ih x hx
    · rw [if_neg hc] at hx
      cases hx
      exact Bool.not_eq_true _ ▸ hc

theorem schemeSplit_of_head_not_alpha (d : List Char) {u : List Char}
    (h : ∀ x, u.head? = some x → x.isAlpha = false) : schemeSplit d u = (d, u) := by
  apply schemeSplit_of_invalid
  intro pre post hdecomp _
  rcases pre with _ | ⟨y, ys⟩
  · rfl
  · have hy : y.isAlpha = false := h y (by rw [hdecomp]; rfl)
    rw [validScheme, hy]
    rfl

theorem schemeSplit_prefix_noop {U j : List Char} (hU : schemeSplit [] U = ([], U))
    (hpre : j <+: U) : ∀ d, schemeSplit d j = (d, j) := by
  intro d
  apply schemeSplit_of_invalid
  intro pre post hdecomp hpc
  by_contra hvs
  rw [Bool.not_eq_false] at hvs
  obtain ⟨t, ht⟩ := hpre
  rw [hdecomp] at ht
  rw [List.append_assoc] at ht
  have hsplitU : splitOnceChar ':' U = some (pre, post ++ t) := by
    rw [← ht]
    exact splitOnceChar_append (post ++ t) hpc
  rw [schemeSplit, hsplitU] at hU
  dsimp only at hU
  rw [if_pos hvs] at hU
  have : pre.map Char.toLower = [] := congrArg Prod.fst hU
  have hpre_nil : pre = [] := List.map_eq_nil_iff.mp this
  rw [hpre_nil] at hvs
  exact absurd hvs (by decide)

theorem netlocSplit_of_take2 {u : List Char} (h : u.take 2 ≠ ['/', '/']) :
    netlocSplit u = ([], u) := by
  rw [netlocSplit, if_neg h]

theorem netlocSplit_slashslash (rest : List Char) :
    netlocSplit ('/' :: '/' :: rest) =
      (rest.takeWhile (fun c => !netlocDelim c),
       rest.dropWhile (fun c => !netlocDelim c)) := by
  rw [netlocSplit, if_pos (by rfl)]
  simp only [List.drop_succ_cons, List.drop_zero]

theorem hashSplit_spec (r : List Char) :
    (hashSplit r).1 <+: r ∧ '#' ∉ (hashSplit r).1 := by
  rw [hashSplit]
  rcases hs : splitOnceChar '#' r with _ | ⟨a, b⟩
  · exact ⟨List.prefix_refl r, splitOnceChar_eq_none hs⟩
  · rcases splitOnceChar_eq_some hs with ⟨h1, h2⟩
    rw [h1]
    exact ⟨List.prefix_append a ('#' :: b), h2⟩

theorem querySplit_spec (r : List Char) :
    (querySplit r).1 <+: r ∧ '?' ∉ (querySplit r).1 := by
  rw [querySplit]
  rcases hs : splitOnceChar '?' r with _ | ⟨a, b⟩
  · exact ⟨List.prefix_refl r, splitOnceChar_eq_none hs⟩
  · rcases splitOnceChar_eq_some hs with ⟨h1, h2⟩
    rw [h1]
    exact ⟨List.prefix_append a ('?' :: b), h2⟩
/-! ## Claim C6: params lemmas -/

theorem splitparams_cases {x : List Char} (hsemi : ';' ∈ x) :
    (∃ u1 u2, x = u1 ++ ';' :: u2 ∧ ';' ∉ u1 ∧ '/' ∉ x ∧ splitparams x = (u1, u2))
    ∨ (∃ a b, x = a ++ '/' :: b ∧ '/' ∉ b ∧ ';' ∉ b ∧ splitparams x = (x, []))
    ∨ (∃ a b1 b2, x = a ++ '/' :: (b1 ++ ';' :: b2) ∧ '/' ∉ b1 ++ ';' :: b2
        ∧ ';' ∉ b1 ∧ splitparams x = (a ++ '/' :: b1, b2)) := by
  rcases hsl : splitLastChar '/' x with _ | ⟨a, b⟩
  · have hns : '/' ∉ x := splitLastChar_eq_none hsl
    rcases hso : splitOnceChar ';' x with _ | ⟨u1, u2⟩
    · exact absurd hsemi (splitOnceChar_eq_none hso)
    · rcases splitOnceChar_eq_some hso with ⟨hx, hnu⟩
      exact Or.inl ⟨u1, u2, hx, hnu, hns, by rw [splitparams, hsl]; dsimp only; rw [hso]⟩
  · rcases splitLastChar_eq_some hsl with ⟨hx, hnb⟩
    rcases hso : splitOnceChar ';' b with _ | ⟨b1, b2⟩
    · exact Or.inr (Or.inl ⟨a, b, hx, hnb, splitOnceChar_eq_none hso,
        by rw [splitparams, hsl]; dsimp only; rw [hso]⟩)
    · rcases splitOnceChar_eq_some hso with ⟨hb, hnb1⟩
      refine Or.inr (Or.inr ⟨a, b1, b2, ?_, ?_, hnb1, by rw [splitparams, hsl]; dsimp only; rw [hso]⟩)
      · rw [hx, hb]
      · rw [← hb]; exact hnb

theorem resplit_subset (sch x : List Char) :
    (∀ c ∈ (resplitParams sch x).1, c ∈ x) ∧ (∀ c ∈ (resplitParams sch x).2, c ∈ x) := by
  by_cases hg : sch ∈ uses_params ∧ ';' ∈ x
  · rcases splitparams_cases hg.2 with ⟨u1, u2, hx, _, _, hsp⟩ |
      ⟨a, b, hx, _, _, hsp⟩ | ⟨a, b1, b2, hx, _, _, hsp⟩
    · rw [resplitParams, if_pos hg, hsp]
      constructor
      · intro c hc; rw [hx]; simp only [List.mem_append, List.mem_cons]; tauto
      · intro c hc; rw [hx]; simp only [List.mem_append, List.mem_cons]; tauto
    · rw [resplitParams, if_pos hg, hsp]
      exact ⟨fun c hc => hc, fun c hc => absurd hc (List.not_mem_nil c)⟩
    · rw [resplitParams, if_pos hg, hsp]
      constructor
      · intro c hc
        rw [hx]
        simp only [List.mem_append, List.mem_cons] at hc ⊢
        tauto
      · intro c hc
        rw [hx]
        simp only [List.mem_append, List.mem_cons]
        tauto
  · rw [resplitParams, if_neg hg]
    exact ⟨fun c hc => hc, fun c hc => absurd hc (List.not_mem_nil c)⟩

theorem resplit_rejoin_prefix (sch x : List Char) :
    rejoinParams (resplitParams sch x).1 (resplitParams sch x).2 <+: x := by
  by_cases hg : sch ∈ uses_params ∧ ';' ∈ x
  · rcases splitparams_cases hg.2 with ⟨u1, u2, hx, _, _, hsp⟩ |
      ⟨a, b, hx, _, _, hsp⟩ | ⟨a, b1, b2, hx, _, _, hsp⟩
    · rw [resplitParams, if_pos hg, hsp]
      dsimp only
      by_cases hu2 : u2 = []
      · subst hu2
        rw [rejoinParams_nil, hx]
        exact List.prefix_append u1 (';' :: [])
      · rw [rejoinParams, if_pos hu2, hx]
    · rw [resplitParams, if_pos hg, hsp]
      dsimp only
      rw [rejoinParams_nil]
    · rw [resplitParams, if_pos hg, hsp]
      dsimp only
      have hx' : x = (a ++ '/' :: b1) ++ ';' :: b2 := by rw [hx]; simp
      by_cases hb2 : b2 = []
      · subst hb2
        rw [rejoinParams_nil, hx']
        exact List.prefix_append _ _
      · rw [rejoinParams, if_pos hb2, hx']
  · rw [resplitParams, if_neg hg]
    dsimp only
    rw [rejoinParams_nil]

theorem resplit_stable (sch x : List Char) :
    resplitParams sch
        (rejoinParams (resplitParams sch x).1 (resplitParams sch x).2)
      = resplitParams sch x := by
  by_cases hg : sch ∈ uses_params ∧ ';' ∈ x
  · rcases splitparams_cases hg.2 with ⟨u1, u2, hx, hnu, hns, hsp⟩ |
      ⟨a, b, hx, hnb, hnsb, hsp⟩ | ⟨a, b1, b2, hx, hnb, hnb1, hsp⟩
    · have hpp : resplitParams sch x = (u1, u2) := by rw [resplitParams, if_pos hg, hsp]
      rw [hpp]
      dsimp only
      by_cases hu2 : u2 = []
      · subst hu2
        rw [rejoinParams_nil]
        have hnu1 : ';' ∉ u1 := hnu
        rw [resplitParams, if_neg (fun hc => hnu1 hc.2)]
      · rw [rejoinParams, if_pos hu2]
        have hns' : '/' ∉ u1 ++ ';' :: u2 := by rw [← hx]; exact hns
        rw [resplitParams,
          if_pos ⟨hg.1, by simp only [List.mem_append, List.mem_cons]; tauto⟩,
          splitparams, splitLastChar_of_not_mem hns']
        dsimp only
        rw [splitOnceChar_append u2 hnu]
    · have hpp : resplitParams sch x = (x, []) := by rw [resplitParams, if_pos hg, hsp]
      rw [hpp]
      dsimp only
      rw [rejoinParams_nil, hpp]
    · have hpp : resplitParams sch x = (a ++ '/' :: b1, b2) := by
        rw [resplitParams, if_pos hg, hsp]
      rw [hpp]
      dsimp only
      have hnbslash : '/' ∉ b1 := fun hm =>
        hnb (by simp only [List.mem_append, List.mem_cons]; tauto)
      by_cases hb2 : b2 = []
      · subst hb2
        rw [rejoinParams_nil]
        by_cases hsj : ';' ∈ a ++ '/' :: b1
        · rw [resplitParams, if_pos ⟨hg.1, hsj⟩, splitparams,
            splitLastChar_append a hnbslash]
          dsimp only
          rw [splitOnceChar_of_not_mem hnb1]
        · rw [resplitParams, if_neg (fun hc => hsj hc.2)]
      · rw [rejoinParams, if_pos hb2]
        have hassoc : (a ++ '/' :: b1) ++ ';' :: b2 = a ++ '/' :: (b1 ++ ';' :: b2) := by
          simp
        rw [hassoc]
        rw [resplitParams,
          if_pos ⟨hg.1, by simp only [List.mem_append, List.mem_cons]; tauto⟩,
          splitparams, splitLastChar_append a hnb]
        dsimp only
        rw [splitOnceChar_append b2 hnb1]
  · have hpp : resplitParams sch x = (x, []) := by rw [resplitParams, if_neg hg]
    rw [hpp]
    dsimp only
    rw [rejoinParams_nil, hpp]

theorem resplit_slash (sch x : List Char) :
    resplitParams sch
        ('/' :: rejoinParams (resplitParams sch x).1 (resplitParams sch x).2)
      = ('/' :: (resplitParams sch x).1, (resplitParams sch x).2) := by
  by_cases hg : sch ∈ uses_params ∧ ';' ∈ x
  · rcases splitparams_cases hg.2 with ⟨u1, u2, hx, hnu, hns, hsp⟩ |
      ⟨a, b, hx, hnb, hnsb, hsp⟩ | ⟨a, b1, b2, hx, hnb, hnb1, hsp⟩
    · have hpp : resplitParams sch x = (u1, u2) := by rw [resplitParams, if_pos hg, hsp]
      rw [hpp]
      dsimp only
      by_cases hu2 : u2 = []
      · subst hu2
        rw [rejoinParams_nil]
        rw [resplitParams, if_neg (fun hc => by
          rcases List.mem_cons.mp hc.2 with hm | hm
          · cases hm
          · exact hnu hm)]
      · rw [rejoinParams, if_pos hu2]
        have hnsj : '/' ∉ u1 ++ ';' :: u2 := by rw [← hx]; exact hns
        have hcons : '/' :: (u1 ++ ';' :: u2) = [] ++ '/' :: (u1 ++ ';' :: u2) := rfl
        rw [resplitParams,
          if_pos ⟨hg.1, by simp only [List.mem_cons, List.mem_append]; tauto⟩,
          splitparams, hcons, splitLastChar_append [] hnsj]
        dsimp only
        rw [splitOnceChar_append u2 hnu]
        rfl
    · have hpp : resplitParams sch x = (x, []) := by rw [resplitParams, if_pos hg, hsp]
      rw [hpp]
      dsimp only
      rw [rejoinParams_nil]
      have hcons : '/' :: x = ('/' :: a) ++ '/' :: b := by rw [hx]; rfl
      rw [resplitParams,
        if_pos ⟨hg.1, List.mem_cons_of_mem '/' hg.2⟩,
        splitparams, hcons, splitLastChar_append ('/' :: a) hnb]
      dsimp only
      rw [splitOnceChar_of_not_mem hnsb, ← hcons]
    · have hpp : resplitParams sch x = (a ++ '/' :: b1, b2) := by
        rw [resplitParams, if_pos hg, hsp]
      rw [hpp]
      dsimp only
      have hnbslash : '/' ∉ b1 := fun hm =>
        hnb (by simp only [List.mem_append, List.mem_cons]; tauto)
      by_cases hb2 : b2 = []
      · subst hb2
        rw [rejoinParams_nil]
        by_cases hsj : ';' ∈ '/' :: (a ++ '/' :: b1)
        · have hcons : '/' :: (a ++ '/' :: b1) = ('/' :: a) ++ '/' :: b1 := rfl
          rw [resplitParams, if_pos ⟨hg.1, hsj⟩, splitparams, hcons,
            splitLastChar_append ('/' :: a) hnbslash]
          dsimp only
          rw [splitOnceChar_of_not_mem hnb1, ← hcons]
        · rw [resplitParams, if_neg (fun hc => hsj hc.2)]
      · rw [rejoinParams, if_pos hb2]
        have hassoc : '/' :: ((a ++ '/' :: b1) ++ ';' :: b2)
            = ('/' :: a) ++ '/' :: (b1 ++ ';' :: b2) := by simp
        rw [resplitParams,
          if_pos ⟨hg.1, by simp only [List.mem_cons, List.mem_append]; tauto⟩,
          splitparams, hassoc, splitLastChar_append ('/' :: a) hnb]
        dsimp only
        rw [splitOnceChar_append b2 hnb1]
        rfl
  · have hpp : resplitParams sch x = (x, []) := by rw [resplitParams, if_neg hg]
    rw [hpp]
    dsimp only
    rw [rejoinParams_nil]
    rw [resplitParams, if_neg (fun hc => hg ⟨hc.1, by
      rcases List.mem_cons.mp hc.2 with hm | hm
      · cases hm
      · exact hm⟩)]
/-! ## Claim C6: parse invariants -/

theorem unsafe_c0 {c : Char} (h : isUnsafeUrlByte c = true) : isC0Space c = true := by
  rw [isUnsafeUrlByte, Bool.or_eq_true, Bool.or_eq_true] at h
  rcases h with (hc | hc) | hc <;>
    (rw [decide_eq_true_iff] at hc; subst hc; decide)

theorem takeWhile_nil_dropWhile {p : Char → Bool} {l : List Char}
    (h : l.takeWhile p = []) : l.dropWhile p = l := by
  rcases l with _ | ⟨x, xs⟩
  · rfl
  · rw [List.takeWhile_cons] at h
    by_cases hx : p x
    · rw [if_pos hx] at h; cases h
    · rw [List.dropWhile_cons, if_neg hx]

theorem takeWhile_nil_head {p : Char → Bool} {l : List Char}
    (h : l.takeWhile p = []) : ∀ x, l.head? = some x → p x = false := by
  rcases l with _ | ⟨y, ys⟩
  · intro x hx; cases hx
  · intro x hx
    cases hx
    rw [List.takeWhile_cons] at h
    by_cases hy : p y
    · rw [if_pos hy] at h; cases h
    · exact Bool.not_eq_true _ ▸ hy

theorem head?_some_mem {l : List Char} {x : Char} (h : l.head? = some x) : x ∈ l := by
  rcases l with _ | ⟨y, ys⟩
  · cases h
  · cases h
    exact List.mem_cons_self x ys

theorem prefix_head {j U : List Char} (h : j <+: U) :
    ∀ x, j.head? = some x → U.head? = some x := by
  obtain ⟨t, rfl⟩ := h
  rcases j with _ | ⟨y, ys⟩
  · intro x hx; cases hx
  · intro x hx; cases hx; rfl

theorem schemeSplit_nil_inv {U sch r1 : List Char}
    (h : schemeSplit [] U = (sch, r1)) (hsch : sch = []) :
    r1 = U ∧ schemeSplit [] U = ([], U) := by
  subst hsch
  rcases hso : splitOnceChar ':' U with _ | ⟨pre, post⟩
  · rw [schemeSplit, hso] at h
    cases h
    exact ⟨rfl, by rw [schemeSplit, hso]⟩
  · rw [schemeSplit, hso] at h
    dsimp only at h
    by_cases hv : validScheme pre
    · rw [if_pos hv] at h
      have : pre.map Char.toLower = [] := congrArg Prod.fst h
      rw [List.map_eq_nil_iff.mp this] at hv
      exact absurd hv (by decide)
    · rw [if_neg hv] at h
      cases h
      exact ⟨rfl, by rw [schemeSplit, hso]; dsimp only; rw [if_neg hv]⟩

theorem parseInv_aux (U : List Char)
    (hUsafe : ∀ c ∈ U, isUnsafeUrlByte c = false)
    (hUhead : ∀ x, U.head? = some x → isC0Space x = false) :
    ParseInv ⟨(schemeSplit [] U).1,
      (netlocSplit (schemeSplit [] U).2).1,
      (resplitParams (schemeSplit [] U).1
        (querySplit (hashSplit (netlocSplit (schemeSplit [] U).2).2).1).1).1,
      (resplitParams (schemeSplit [] U).1
        (querySplit (hashSplit (netlocSplit (schemeSplit [] U).2).2).1).1).2,
      (querySplit (hashSplit (netlocSplit (schemeSplit [] U).2).2).1).2,
      (hashSplit (netlocSplit (schemeSplit [] U).2).2).2⟩ := by
  rcases hss : schemeSplit [] U with ⟨sch, r1⟩
  rcases hns : netlocSplit r1 with ⟨nl, r2⟩
  rcases hhs : hashSplit r2 with ⟨r3, fr⟩
  rcases hqs : querySplit r3 with ⟨p0, qy⟩
  dsimp only
  -- membership chains
  have hr1U : ∀ c ∈ r1, c ∈ U := by
    rcases hso : splitOnceChar ':' U with _ | ⟨pre, post⟩
    · rw [schemeSplit, hso] at hss
      cases hss
      exact fun c hc => hc
    · rw [schemeSplit, hso] at hss
      dsimp only at hss
      rcases splitOnceChar_eq_some hso with ⟨hU, _⟩
      by_cases hv : validScheme pre
      · rw [if_pos hv] at hss
        cases hss
        intro c hc
        rw [hU]
        simp only [List.mem_append, List.mem_cons]
        tauto
      · rw [if_neg hv] at hss
        cases hss
        exact fun c hc => hc
  have hnlr1 : (∀ c ∈ nl, c ∈ r1) ∧ (∀ c ∈ r2, c ∈ r1)
      ∧ (∀ ch ∈ nl, netlocDelim ch = false) := by
    rw [netlocSplit] at hns
    by_cases ht : r1.take 2 = ['/', '/']
    · rw [if_pos ht] at hns
      cases hns
      refine ⟨?_, ?_, ?_⟩
      · intro c hc
        exact (List.drop_sublist 2 r1).mem ((List.takeWhile_sublist _).mem hc)
      · intro c hc
        exact (List.drop_sublist 2 r1).mem ((List.dropWhile_sublist _).mem hc)
      · intro ch hch
        have := List.mem_takeWhile_imp hch
        rw [Bool.not_eq_true'] at this
        exact this
    · rw [if_neg ht] at hns
      cases hns
      exact ⟨fun c hc => absurd hc (List.not_mem_nil c), fun c hc => hc,
        fun ch hch => absurd hch (List.not_mem_nil ch)⟩
  have hr3 : r3 <+: r2 ∧ '#' ∉ r3 := by
    have := hashSplit_spec r2
    rw [hhs] at this
    exact this
  have hp0 : p0 <+: r3 ∧ '?' ∉ p0 := by
    have := querySplit_spec r3
    rw [hqs] at this
    exact this
  have hp0r2 : ∀ c ∈ p0, c ∈ r2 := fun c hc =>
    hr3.1.subset (hp0.1.subset hc)
  have hp0hash : '#' ∉ p0 := fun hm => hr3.2 (hp0.1.subset hm)
  have hsubset := resplit_subset sch p0
  have hpathp0 : ∀ c ∈ (resplitParams sch p0).1, c ∈ p0 := hsubset.1
  have hparamsp0 : ∀ c ∈ (resplitParams sch p0).2, c ∈ p0 := hsubset.2
  constructor
  -- scheme_ok
  · rcases hso : splitOnceChar ':' U with _ | ⟨pre, post⟩
    · rw [schemeSplit, hso] at hss
      cases hss
      exact Or.inl rfl
    · rw [schemeSplit, hso] at hss
      dsimp only at hss
      by_cases hv : validScheme pre
      · rw [if_pos hv] at hss
        cases hss
        exact Or.inr ⟨validScheme_map_toLower hv, map_toLower_idem pre⟩
      · rw [if_neg hv] at hss
        cases hss
        exact Or.inl rfl
  -- netloc_delim
  · exact hnlr1.2.2
  -- netloc_safe
  · exact fun ch hch => hUsafe ch (hr1U ch (hnlr1.1 ch hch))
  -- path_hash
  · exact fun hm => hp0hash (hpathp0 '#' hm)
  -- path_query
  · exact fun hm => hp0.2 (hpathp0 '?' hm)
  -- path_safe
  · exact fun ch hch => hUsafe ch (hr1U ch (hnlr1.2.1 ch (hp0r2 ch (hpathp0 ch hch))))
  -- params_hash
  · exact fun hm => hp0hash (hparamsp0 '#' hm)
  -- params_query
  · exact fun hm => hp0.2 (hparamsp0 '?' hm)
  -- params_safe
  · exact fun ch hch => hUsafe ch (hr1U ch (hnlr1.2.1 ch (hp0r2 ch (hparamsp0 ch hch))))
  -- params_ok
  · exact ⟨p0, rfl⟩
  -- noscheme
  · intro hsch hnl
    rcases schemeSplit_nil_inv hss hsch with ⟨hr1, hssid⟩
    have hjp0 : rejoinParams (resplitParams sch p0).1 (resplitParams sch p0).2 <+: p0 :=
      resplit_rejoin_prefix sch p0
    rw [netlocSplit] at hns
    by_cases ht : r1.take 2 = ['/', '/']
    · -- netloc branch taken but empty netloc: r2 starts with a delimiter
      rw [if_pos ht] at hns
      cases hns
      have hnl' : (r1.drop 2).takeWhile (fun c => !netlocDelim c) = [] := hnl
      have hr2eq : (r1.drop 2).dropWhile (fun c => !netlocDelim c) = r1.drop 2 :=
        takeWhile_nil_dropWhile hnl'
      have hr2head : ∀ x, (r1.drop 2).head? = some x → netlocDelim x = true := by
        intro x hx
        have hb := takeWhile_nil_head hnl' x hx
        rcases hd : netlocDelim x with _ | _
        · rw [hd] at hb; cases hb
        · rfl
      -- p0 is empty or starts with '/'
      have hp0shape : ∀ x, p0.head? = some x → x = '/' := by
        intro x hx
        have hxr3 : r3.head? = some x := prefix_head hp0.1 x hx
        have hxr2 : ((r1.drop 2).dropWhile (fun c => !netlocDelim c)).head? = some x := by
          rw [hr2eq]
          exact prefix_head (hr2eq ▸ hr3.1) x hxr3
        have hdelim : netlocDelim x = true := by
          have := hr2head x (by rw [← hr2eq]; exact hxr2)
          exact this
        rw [netlocDelim, Bool.or_eq_true, Bool.or_eq_true] at hdelim
        rcases hdelim with (hc | hc) | hc
        · rw [decide_eq_true_iff] at hc; exact hc
        · rw [decide_eq_true_iff] at hc
          subst hc
          exact absurd (head?_some_mem hx) hp0.2
        · rw [decide_eq_true_iff] at hc
          subst hc
          exact absurd (head?_some_mem hx) hp0hash
      constructor
      · intro d
        apply schemeSplit_of_head_not_alpha
        intro x hx
        have := hp0shape x (prefix_head hjp0 x hx)
        subst this
        decide
      · intro ch hch
        have := hp0shape ch (prefix_head hjp0 ch hch)
        subst this
        decide
    · -- no netloc branch: the rejoined portion is a prefix of U
      rw [if_neg ht] at hns
      cases hns
      have hjU : rejoinParams (resplitParams sch p0).1 (resplitParams sch p0).2 <+: U := by
        rw [← hr1]
        exact hjp0.trans (hp0.1.trans hr3.1)
      constructor
      · exact schemeSplit_prefix_noop hssid hjU
      · intro ch hch
        exact hUhead ch (prefix_head hjU ch hch)
theorem parseInv_of_urlparse (u : List Char) : ParseInv (urlparse [] u) := by
  have hUsafe : ∀ c ∈ (u.dropWhile isC0Space).filter (fun c => !isUnsafeUrlByte c),
      isUnsafeUrlByte c = false := by
    intro c hc
    have hb := (List.mem_filter.mp hc).2
    rcases hd : isUnsafeUrlByte c with _ | _
    · rfl
    · rw [hd] at hb; cases hb
  have hUhead : ∀ x,
      ((u.dropWhile isC0Space).filter (fun c => !isUnsafeUrlByte c)).head? = some x →
      isC0Space x = false := by
    rcases hdw : u.dropWhile isC0Space with _ | ⟨d0, ds⟩
    · intro x hx; cases hx
    · have hd0 : isC0Space d0 = false :=
        head?_dropWhile isC0Space u d0 (by rw [hdw]; rfl)
      have hd0safe : isUnsafeUrlByte d0 = false := by
        rcases hb : isUnsafeUrlByte d0 with _ | _
        · rfl
        · rw [unsafe_c0 hb] at hd0; cases hd0
      intro x hx
      rw [List.filter_cons, if_pos (by rw [hd0safe]; rfl)] at hx
      cases hx
      exact hd0
  exact parseInv_aux _ hUsafe hUhead

/-! ## Claim C6: re-parsing the un-parsed URL -/

theorem rejoin_take2 {p : List Char} (pa : List Char) (hp : p.take 2 ≠ ['/', '/']) :
    (rejoinParams p pa).take 2 ≠ ['/', '/'] := by
  by_cases hpa : pa = []
  · subst hpa; rw [rejoinParams_nil]; exact hp
  · rw [rejoinParams, if_pos hpa]
    rcases p with _ | ⟨x, _ | ⟨y, rest⟩⟩
    · rw [List.nil_append]
      rcases pa with _ | ⟨z, zs⟩
      · exact absurd rfl hpa
      · intro hcontra
        cases hcontra
    · intro hcontra
      rw [List.cons_append, List.take] at hcontra
      cases hcontra
    · intro hcontra
      rw [List.cons_append, List.cons_append] at hcontra
      rw [List.take, List.take] at hcontra
      injection hcontra with h1 h2
      injection h2 with h2 _
      exact hp (by rw [h1, h2]; rfl)

theorem validScheme_head {s : List Char} (hs : validScheme s = true) :
    ∀ x, s.head? = some x → x.isAlpha = true := by
  rcases s with _ | ⟨c, cs⟩
  · intro x hx; cases hx
  · intro x hx
    cases hx
    rw [validScheme, Bool.and_eq_true] at hs
    exact hs.1

theorem validScheme_safe {s : List Char} (hs : validScheme s = true) :
    ∀ c ∈ s, isUnsafeUrlByte c = false := by
  rcases s with _ | ⟨c, cs⟩
  · intro c hc; cases hc
  · rw [validScheme, Bool.and_eq_true, List.all_eq_true] at hs
    exact fun x hx => schemeChar_not_unsafe (hs.2 x hx)

/-- Parsing `[scheme:] ++ body` when the scheme is absent or well-formed and
the body neither re-parses a scheme nor begins with strippable
whitespace. -/
theorem urlsplit_clean_scheme (sch body : List Char)
    (hschok : sch = [] ∨ (validScheme sch = true ∧ sch.map Char.toLower = sch))
    (hsafe : ∀ ch ∈ body, isUnsafeUrlByte ch = false)
    (hnos : sch = [] → ∀ d, schemeSplit d body = (d, body))
    (hhead : sch = [] → ∀ x, body.head? = some x → isC0Space x = false) :
    urlsplit [] (if sch ≠ [] then sch ++ ':' :: body else body)
      = ⟨sch, (netlocSplit body).1,
          (querySplit (hashSplit (netlocSplit body).2).1).1,
          (querySplit (hashSplit (netlocSplit body).2).1).2,
          (hashSplit (netlocSplit body).2).2⟩ := by
  by_cases hs : sch = []
  · subst hs
    rw [if_neg (fun hc => hc rfl)]
    rw [urlsplit]
    have hdrop : body.dropWhile isC0Space = body :=
      dropWhile_eq_self_of_head (hhead rfl)
    have hfilt : body.filter (fun c => !isUnsafeUrlByte c) = body :=
      filter_eq_self_of_all (fun c hc => by rw [Bool.not_eq_true']; exact hsafe c hc)
    rw [hdrop, hfilt, hnos rfl []]
  · rcases hschok with hc0 | ⟨hvs, hlow⟩
    · exact absurd hc0 hs
    rw [if_pos hs]
    rw [urlsplit]
    have hheadv : ∀ x, (sch ++ ':' :: body).head? = some x → isC0Space x = false := by
      rcases sch with _ | ⟨s0, srest⟩
      · exact absurd rfl hs
      · intro x hx
        have hx' : some s0 = some x := by rw [← hx]; rfl
        cases hx'
        exact alpha_not_c0space (validScheme_head hvs s0 rfl)
    have hallv : ∀ ch ∈ sch ++ ':' :: body, isUnsafeUrlByte ch = false :=
      unsafeFree_append sch (':' :: body) (validScheme_safe hvs)
        (unsafeFree_cons ':' body (by decide) hsafe)
    have hdrop : (sch ++ ':' :: body).dropWhile isC0Space = sch ++ ':' :: body :=
      dropWhile_eq_self_of_head hheadv
    have hfilt : (sch ++ ':' :: body).filter (fun c => !isUnsafeUrlByte c)
        = sch ++ ':' :: body :=
      filter_eq_self_of_all (fun c hc => by rw [Bool.not_eq_true']; exact hallv c hc)
    rw [hdrop, hfilt, schemeSplit_extract [] body hvs, hlow]
theorem urlunparse_noqf (sch nl P PA : List Char) :
    urlunparse ⟨sch, nl, P, PA, [], []⟩
      = (if sch ≠ [] then
          sch ++ ':' ::
            (if nl ≠ [] ∨ (sch ≠ [] ∧ sch ∈ uses_netloc
                ∧ (rejoinParams P PA).take 2 ≠ ['/', '/']) then
              '/' :: '/' :: nl ++
                (if rejoinParams P PA ≠ [] ∧ (rejoinParams P PA).take 1 ≠ ['/'] then
                  '/' :: rejoinParams P PA
                else rejoinParams P PA)
            else rejoinParams P PA)
        else
          (if nl ≠ [] ∨ (sch ≠ [] ∧ sch ∈ uses_netloc
              ∧ (rejoinParams P PA).take 2 ≠ ['/', '/']) then
            '/' :: '/' :: nl ++
              (if rejoinParams P PA ≠ [] ∧ (rejoinParams P PA).take 1 ≠ ['/'] then
                '/' :: rejoinParams P PA
              else rejoinParams P PA)
          else rejoinParams P PA)) := by
  rw [urlunparse, urlunsplit]
  dsimp only
  rw [if_neg (fun hc : ([] : List Char) ≠ [] => hc rfl),
    if_neg (fun hc : ([] : List Char) ≠ [] => hc rfl)]

/-- Re-parsing and re-unparsing a URL of the shape
`[scheme:]//netloc……` reproduces it. -/
theorem reparse_netloc_branch (sch nl p2 pa u' : List Char)
    (hschok : sch = [] ∨ (validScheme sch = true ∧ sch.map Char.toLower = sch))
    (hnldelim : ∀ ch ∈ nl, netlocDelim ch = false)
    (hnlsafe : ∀ ch ∈ nl, isUnsafeUrlByte ch = false)
    (hu'safe : ∀ ch ∈ u', isUnsafeUrlByte ch = false)
    (hu'hash : '#' ∉ u') (hu'query : '?' ∉ u')
    (hu'shape : u' = [] ∨ u'.take 1 = ['/'])
    (hresp : resplitParams sch u' = (p2, pa))
    (hrejoin : rejoinParams p2 pa = u')
    (hCA2 : nl ≠ [] ∨ (sch ≠ [] ∧ sch ∈ uses_netloc ∧ u'.take 2 ≠ ['/', '/'])) :
    normalize_url (if sch ≠ [] then sch ++ ':' :: ('/' :: '/' :: (nl ++ u'))
        else '/' :: '/' :: (nl ++ u'))
      = (if sch ≠ [] then sch ++ ':' :: ('/' :: '/' :: (nl ++ u'))
        else '/' :: '/' :: (nl ++ u')) := by
  have hheadbody : ∀ x, ('/' :: '/' :: (nl ++ u')).head? = some x → isC0Space x = false := by
    intro x hx
    have hx' : some '/' = some x := by rw [← hx]; rfl
    cases hx'
    decide
  have hbodyalpha : ∀ x, ('/' :: '/' :: (nl ++ u')).head? = some x → x.isAlpha = false := by
    intro x hx
    have hx' : some '/' = some x := by rw [← hx]; rfl
    cases hx'
    decide
  have hbodysafe : ∀ ch ∈ '/' :: '/' :: (nl ++ u'), isUnsafeUrlByte ch = false :=
    unsafeFree_cons '/' _ (by decide)
      (unsafeFree_cons '/' _ (by decide) (unsafeFree_append nl u' hnlsafe hu'safe))
  have hsplit := urlsplit_clean_scheme sch ('/' :: '/' :: (nl ++ u')) hschok hbodysafe
    (fun _ d => schemeSplit_of_head_not_alpha d hbodyalpha)
    (fun _ => hheadbody)
  have hnet : netlocSplit ('/' :: '/' :: (nl ++ u')) = (nl, u') := by
    rw [netlocSplit_slashslash]
    have hb : ∀ x, u'.head? = some x → (!netlocDelim x) = false := by
      intro x hx
      rcases hu'shape with hsh | hsh
      · rw [hsh] at hx; cases hx
      · rcases u' with _ | ⟨y, ys⟩
        · cases hx
        · rw [List.take] at hsh
          injection hsh with hy _
          cases hx
          rw [hy]
          rfl
    have := @takeWhile_dropWhile_append (fun c => !netlocDelim c) nl u'
      (fun c hc => by show (!netlocDelim c) = true; rw [hnldelim c hc]; rfl) hb
    rw [this.1, this.2]
  rw [hnet] at hsplit
  dsimp only at hsplit
  rw [hashSplit_of_not_mem hu'hash] at hsplit
  dsimp only at hsplit
  rw [querySplit_of_not_mem hu'query] at hsplit
  dsimp only at hsplit
  have hup : urlparse []
      (if sch ≠ [] then sch ++ ':' :: ('/' :: '/' :: (nl ++ u'))
        else '/' :: '/' :: (nl ++ u'))
      = ⟨sch, nl, p2, pa, [], []⟩ := by
    rw [urlparse, hsplit]
    dsimp only
    rw [hresp]
  rw [normalize_url, hup]
  dsimp only
  rw [urlunparse_noqf, hrejoin]
  rw [if_pos hCA2]
  have hprefalse : ¬(u' ≠ [] ∧ u'.take 1 ≠ ['/']) := by
    rcases hu'shape with hsh | hsh
    · exact fun hcon => hcon.1 hsh
    · exact fun hcon => hcon.2 hsh
  rw [if_neg hprefalse]
  have hassoc : '/' :: '/' :: nl ++ u' = '/' :: '/' :: (nl ++ u') := by simp
  rw [hassoc]

/-- Re-parsing and re-unparsing a URL of the shape `[scheme:]path…`
(no netloc marker) reproduces it. -/
theorem reparse_bare_branch (sch p pa : List Char)
    (hschok : sch = [] ∨ (validScheme sch = true ∧ sch.map Char.toLower = sch))
    (hjsafe : ∀ ch ∈ rejoinParams p pa, isUnsafeUrlByte ch = false)
    (hjhash : '#' ∉ rejoinParams p pa) (hjquery : '?' ∉ rejoinParams p pa)
    (hstab : resplitParams sch (rejoinParams p pa) = (p, pa))
    (hnos : sch = [] → ∀ d, schemeSplit d (rejoinParams p pa) = (d, rejoinParams p pa))
    (hhead : sch = [] → ∀ x, (rejoinParams p pa).head? = some x → isC0Space x = false)
    (hjt2 : (rejoinParams p pa).take 2 ≠ ['/', '/'])
    (hCB : ¬(([] : List Char) ≠ [] ∨ (sch ≠ [] ∧ sch ∈ uses_netloc
        ∧ (rejoinParams p pa).take 2 ≠ ['/', '/']))) :
    normalize_url (if sch ≠ [] then sch ++ ':' :: rejoinParams p pa else rejoinParams p pa)
      = (if sch ≠ [] then sch ++ ':' :: rejoinParams p pa else rejoinParams p pa) := by
  have hsplit := urlsplit_clean_scheme sch (rejoinParams p pa) hschok hjsafe hnos hhead
  rw [netlocSplit_of_take2 hjt2] at hsplit
  dsimp only at hsplit
  rw [hashSplit_of_not_mem hjhash] at hsplit
  dsimp only at hsplit
  rw [querySplit_of_not_mem hjquery] at hsplit
  dsimp only at hsplit
  have hup : urlparse []
      (if sch ≠ [] then sch ++ ':' :: rejoinParams p pa else rejoinParams p pa)
      = ⟨sch, [], p, pa, [], []⟩ := by
    rw [urlparse, hsplit]
    dsimp only
    rw [hstab]
  rw [normalize_url, hup]
  dsimp only
  rw [urlunparse_noqf, if_neg hCB]
/-- For components satisfying the parse invariant whose netloc is nonempty
or whose path does not begin with `//`, unparsing then normalizing is the
identity. -/
theorem unparse_reparse (sch nl p pa : List Char)
    (hc : ParseInv ⟨sch, nl, p, pa, [], []⟩)
    (hG : nl ≠ [] ∨ p.take 2 ≠ ['/', '/']) :
    normalize_url (urlunparse ⟨sch, nl, p, pa, [], []⟩)
      = urlunparse ⟨sch, nl, p, pa, [], []⟩ := by
  obtain ⟨x, hx0⟩ := hc.params_ok
  have hx : resplitParams sch x = (p, pa) := hx0
  have hstab : resplitParams sch (rejoinParams p pa) = (p, pa) := by
    have h1 := resplit_stable sch x
    rw [hx] at h1
    exact h1
  have hslash : resplitParams sch ('/' :: rejoinParams p pa) = ('/' :: p, pa) := by
    have h1 := resplit_slash sch x
    rw [hx] at h1
    exact h1
  have hjsafe : ∀ ch ∈ rejoinParams p pa, isUnsafeUrlByte ch = false := by
    by_cases hpa : pa = []
    · subst hpa
      rw [rejoinParams_nil]
      exact hc.path_safe
    · rw [rejoinParams, if_pos hpa]
      exact unsafeFree_append p (';' :: pa) hc.path_safe
        (unsafeFree_cons ';' pa (by decide) hc.params_safe)
  have hjhash : '#' ∉ rejoinParams p pa := by
    by_cases hpa : pa = []
    · subst hpa
      rw [rejoinParams_nil]
      exact hc.path_hash
    · rw [rejoinParams, if_pos hpa]
      intro hm
      rcases List.mem_append.mp hm with hm' | hm'
      · exact hc.path_hash hm'
      · rcases List.mem_cons.mp hm' with hm'' | hm''
        · exact absurd hm'' (by decide)
        · exact hc.params_hash hm''
  have hjquery : '?' ∉ rejoinParams p pa := by
    by_cases hpa : pa = []
    · subst hpa
      rw [rejoinParams_nil]
      exact hc.path_query
    · rw [rejoinParams, if_pos hpa]
      intro hm
      rcases List.mem_append.mp hm with hm' | hm'
      · exact hc.path_query hm'
      · rcases List.mem_cons.mp hm' with hm'' | hm''
        · exact absurd hm'' (by decide)
        · exact hc.params_query hm''
  by_cases hCA : nl ≠ [] ∨ (sch ≠ [] ∧ sch ∈ uses_netloc
      ∧ (rejoinParams p pa).take 2 ≠ ['/', '/'])
  · rw [urlunparse_noqf, if_pos hCA]
    by_cases hpre : rejoinParams p pa ≠ [] ∧ (rejoinParams p pa).take 1 ≠ ['/']
    · rw [if_pos hpre]
      have hu'hash : '#' ∉ '/' :: rejoinParams p pa := by
        intro hm
        rcases List.mem_cons.mp hm with hm' | hm'
        · exact absurd hm' (by decide)
        · exact hjhash hm'
      have hu'query : '?' ∉ '/' :: rejoinParams p pa := by
        intro hm
        rcases List.mem_cons.mp hm with hm' | hm'
        · exact absurd hm' (by decide)
        · exact hjquery hm'
      have hrejoin1 : rejoinParams ('/' :: p) pa = '/' :: rejoinParams p pa := by
        by_cases hpa : pa = []
        · subst hpa
          rw [rejoinParams_nil, rejoinParams_nil]
        · rw [rejoinParams, if_pos hpa, rejoinParams, if_pos hpa, List.cons_append]
      have hCA2 : nl ≠ [] ∨ (sch ≠ [] ∧ sch ∈ uses_netloc
          ∧ ('/' :: rejoinParams p pa).take 2 ≠ ['/', '/']) := by
        rcases hCA with h | ⟨h1, h2, _⟩
        · exact Or.inl h
        · refine Or.inr ⟨h1, h2, ?_⟩
          intro hcon
          have hcon' : '/' :: (rejoinParams p pa).take 1 = ['/', '/'] := by
            rw [← List.take_succ_cons]
            exact hcon
          injection hcon' with _ h4
          exact hpre.2 h4
      have hb : '/' :: '/' :: nl ++ ('/' :: rejoinParams p pa)
          = '/' :: '/' :: (nl ++ '/' :: rejoinParams p pa) := by simp
      rw [hb]
      exact reparse_netloc_branch sch nl ('/' :: p) pa ('/' :: rejoinParams p pa)
        hc.scheme_ok hc.netloc_delim hc.netloc_safe
        (unsafeFree_cons '/' (rejoinParams p pa) (by decide) hjsafe)
        hu'hash hu'query (Or.inr rfl) hslash hrejoin1 hCA2
    · rw [if_neg hpre]
      have hshape : rejoinParams p pa = [] ∨ (rejoinParams p pa).take 1 = ['/'] := by
        rcases not_and_or.mp hpre with h | h
        · exact Or.inl (not_not.mp h)
        · exact Or.inr (not_not.mp h)
      have hb : '/' :: '/' :: nl ++ rejoinParams p pa
          = '/' :: '/' :: (nl ++ rejoinParams p pa) := by simp
      rw [hb]
      exact reparse_netloc_branch sch nl p pa (rejoinParams p pa)
        hc.scheme_ok hc.netloc_delim hc.netloc_safe hjsafe hjhash hjquery
        hshape hstab rfl hCA
  · have hnl : nl = [] := not_not.mp (not_or.mp hCA).1
    subst hnl
    have hp2 : p.take 2 ≠ ['/', '/'] := by
      rcases hG with h | h
      · exact absurd rfl h
      · exact h
    rw [urlunparse_noqf, if_neg hCA]
    exact reparse_bare_branch sch p pa hc.scheme_ok hjsafe hjhash hjquery hstab
      (fun hs => (hc.noscheme hs rfl).1) (fun hs => (hc.noscheme hs rfl).2)
      (rejoin_take2 pa hp2) hCA

/-- `normalize_url` is idempotent on every URL whose parse yields a nonempty
netloc or a path not beginning with `//`. -/
theorem normalize_url_idem (url : List Char) (h : normalizeStable url) :
    normalize_url (normalize_url url) = normalize_url url := by
  have hinv := parseInv_of_urlparse url
  have hinv' : ParseInv ⟨(urlparse [] url).scheme, (urlparse [] url).netloc,
      (urlparse [] url).path, (urlparse [] url).params, [], []⟩ :=
    ⟨hinv.scheme_ok, hinv.netloc_delim, hinv.netloc_safe, hinv.path_hash,
     hinv.path_query, hinv.path_safe, hinv.params_hash, hinv.params_query,
     hinv.params_safe, hinv.params_ok, hinv.noscheme⟩
  exact unparse_reparse (urlparse [] url).scheme (urlparse [] url).netloc
    (urlparse [] url).path (urlparse [] url).params hinv' h
/-- Membership in the extractor's output coincides with membership in the
resolved-and-normalized link sequence. -/
theorem mem_parse_category_iff (html : HtmlNode) (base u : List Char) :
    u ∈ parse_category_product_urls html base ↔ u ∈ resolvedList html base := by
  have hfold := productUrls_foldl base (productLinks html) []
  have hrl := resolvedList_eq_filterMap html base
  have hmain : parse_category_product_urls html base
      = dictFromKeys (resolvedList html base) := by
    rw [parse_category_product_urls]
    rw [hfold, List.nil_append, hrl]
  rw [hmain, dictFromKeys, mem_dictFromKeysGo]
  simp

/-- **C6 (counterexample).** `normalize_url` is not idempotent on all inputs:
`normalize("////") = "//"` but `normalize("//") = ""`, so applying the
normalizer twice to `"////"` differs from applying it once. -/
theorem c6_normalize_idempotent_counterexample :
    normalize_url "////".toList = "//".toList
    ∧ normalize_url (normalize_url "////".toList) ≠ normalize_url "////".toList := by
  decide

/-- **C6 (amended).** URL normalization is idempotent on every URL whose
parse yields a nonempty network location or a path that does not begin with
`//`: for such `u`, `normalize(normalize(u)) = normalize(u)`. -/
theorem c6_normalize_idempotent_amended (url : List Char) (h : normalizeStable url) :
    normalize_url (normalize_url url) = normalize_url url :=
  normalize_url_idem url h

/-- Witness for the amended C6 at the concrete URL `https://x.test/p`. -/
theorem c6_normalize_idempotent_amended_witness :
    normalizeStable "https://x.test/p".toList
    ∧ normalize_url (normalize_url "https://x.test/p".toList)
        = normalize_url "https://x.test/p".toList :=
  ⟨by decide, c6_normalize_idempotent_amended "https://x.test/p".toList (by decide)⟩

/-- **C10 (counterexample).** The extractor's output is not always a fixed
point of the normalizer: a category page whose anchor carries
`href="m:////"`, joined against base `http://h`, puts `m://` in the output,
and `normalize("m://") = "m:" ≠ "m://"`. -/
theorem c10_output_normalized_counterexample :
    parse_category_product_urls unstableLinkDoc "http://h".toList = ["m://".toList]
    ∧ normalize_url "m://".toList = "m:".toList
    ∧ normalize_url "m://".toList ≠ "m://".toList := by
  decide

/-- **C10 (amended).** Every URL in the extractor's output is the
normalization of some resolved link of the page, and is a fixed point of
`normalize_url` whenever that resolved link parses to a nonempty netloc or
to a path not beginning with `//`. -/
theorem c10_output_normalized_amended (html : HtmlNode) (base u : List Char)
    (hu : u ∈ parse_category_product_urls html base) :
    ∃ x ∈ resolvedRaw html base, u = normalize_url x
      ∧ (normalizeStable x → normalize_url u = u) := by
  have hmem := (mem_parse_category_iff html base u).mp hu
  rw [resolvedList, List.mem_map] at hmem
  obtain ⟨x, hxmem, hxu⟩ := hmem
  refine ⟨x, hxmem, hxu.symm, fun hs => ?_⟩
  rw [← hxu]
  exact normalize_url_idem x hs

/-- Witness for the amended C10 on a concrete category page. -/
theorem c10_output_normalized_amended_witness :
    "https://o.test/q".toList ∈
        parse_category_product_urls dupLinkDoc "https://www.konga.com/c?page=9".toList
    ∧ ∃ x ∈ resolvedRaw dupLinkDoc "https://www.konga.com/c?page=9".toList,
        "https://o.test/q".toList = normalize_url x
        ∧ (normalizeStable x →
            normalize_url "https://o.test/q".toList = "https://o.test/q".toList) :=
  ⟨by decide, c10_output_normalized_amended dupLinkDoc
    "https://www.konga.com/c?page=9".toList "https://o.test/q".toList (by decide)⟩

end Scraper
